import Mathlib

/-!
# Verification of the gtsam active-set QP solver core (`QPSolver.cpp`)

Shallow embedding of `gtsam::QPSolver` (file `gtsam_unstable/linear/QPSolver.cpp`)
over exact rational arithmetic.  Machine `double`s are modelled as `ℚ`; the
fixed tolerances `1e-7` appear as the rational `1/10000000`.

The underlying sparse linear solves (`GaussianFactorGraph::optimize()`, used
in `solveWithCurrentWorkingSet` and to solve the dual graph) are external
collaborators of this core and are abstracted as oracle functions, following
the spec's "black-box KKT solver" boundary.  Accessors of `LinearInequality`
(`error`, `dotProductRow`, `active`, `dualKey`) and of `VectorValues`
(`equals`, `exists`, `size`, arithmetic) are declared in headers that are not
part of this core's sources; they are modelled from the spec where noted.
-/

namespace QPVerify

abbrev Key := Nat

/-- A `VectorValues`: one rational vector per variable key.  gtsam stores a
key-sorted map; we model it as an association list in that canonical order. -/
abbrev VectorValues := List (Key × List ℚ)

/-- Value of a variable in a `VectorValues` (the vector stored at `k`;
gtsam's `at(k)` throws when absent — we model it totally, and every theorem
only reads keys that are present). -/
def vvGet (v : VectorValues) (k : Key) : List ℚ :=
  (v.lookup k).getD []

/-- Modelled from the spec: `VectorValues::exists(key)` — whether the
container holds a vector for `key`. -/
def vvExists (v : VectorValues) (k : Key) : Bool :=
  (v.lookup k).isSome

/-- Modelled from the spec: `VectorValues::size()` — the number of variables. -/
def vvSize (v : VectorValues) : Nat := v.length

/-- Dot product of two rational vectors. -/
def dotQ (a x : List ℚ) : ℚ :=
  (List.zipWith (· * ·) a x).sum

/-- Elementwise approximate equality of two vectors within `tol`
(gtsam `equal_with_abs_tol`): equal lengths and every component within `tol`. -/
def listApproxEq (tol : ℚ) : List ℚ → List ℚ → Bool
  | [], [] => true
  | x :: xs, y :: ys => decide (|x - y| ≤ tol) && listApproxEq tol xs ys
  | _, _ => false

/-- Modelled from the spec: `VectorValues::equals(other, tol)` — same keys and
every component within `tol` ("the solved point equals the previous point
within tolerance"). -/
def vvEquals (tol : ℚ) : VectorValues → VectorValues → Bool
  | [], [] => true
  | (k, xs) :: r, (k', ys) :: r' =>
      k = k' && listApproxEq tol xs ys && vvEquals tol r r'
  | _, _ => false

/-- Modelled from the spec: `VectorValues` subtraction (`newValues - state.values`);
pointwise over the (shared) key structure. -/
def vvSub (a b : VectorValues) : VectorValues :=
  a.map (fun p => (p.1, List.zipWith (· - ·) p.2 (vvGet b p.1)))

/-- Modelled from the spec: `state.values + alpha * p`. -/
def vvAxpy (x : VectorValues) (alpha : ℚ) (p : VectorValues) : VectorValues :=
  x.map (fun q => (q.1, List.zipWith (fun xi pi => xi + alpha * pi) q.2 (vvGet p q.1)))

/-- A `LinearInequality` factor: the single-row constraint `aᵀx ≤ b`, stored as
one coefficient block per variable key, with its bound `getb()[0]`, the key of
its Lagrange multiplier, and its mutable activation flag. -/
structure LinearInequality where
  A : List (Key × List ℚ)
  b : ℚ
  dualKey : Key
  active : Bool
deriving DecidableEq, Repr, Inhabited

/-- Modelled from the spec: `LinearInequality::dotProductRow(v)` — the dot
product of the constraint row with a candidate vector, `aᵀv`. -/
def dotRow (c : LinearInequality) (v : VectorValues) : ℚ :=
  (c.A.map (fun p => dotQ p.2 (vvGet v p.1))).sum

/-- Modelled from the spec: `LinearInequality::error(x)` — the violation
`aᵀx - b` of the constraint `aᵀx ≤ b` at `x`. -/
def ineqError (c : LinearInequality) (x : VectorValues) : ℚ :=
  dotRow c x - c.b

/-- A `LinearEquality` factor `aᵀx = b` (always active, never in the working
set); only its coefficient-block keys and dual key feed the dual graph. -/
structure LinearEquality where
  A : List (Key × List ℚ)
  b : ℚ
  dualKey : Key
deriving DecidableEq, Repr, Inhabited

/-- A cost factor, abstracted to the variable keys it touches; its quadratic
payload is consumed only through the black-box gradient oracle. -/
abbrev CostFactor := List Key

/-- The `QP` problem `{cost, equalities, inequalities}`. -/
structure QP where
  cost : List CostFactor
  equalities : List LinearEquality
  inequalities : List LinearInequality
deriving Repr

/-- Embeds `constrainedKeys_`: the union of variables touched by any equality or
inequality constraint (`equalities.keys() merge inequalities.keys()`),
modelled as the concatenated key list (membership is what matters). -/
def constrainedKeys (qp : QP) : List Key :=
  (qp.equalities.map (fun e => e.A.map Prod.fst)).flatten ++
    (qp.inequalities.map (fun c => c.A.map Prod.fst)).flatten

/-- One Jacobian-transpose term of a dual factor: the constraint's dual key
paired with the transposed coefficient block (a column). -/
abbrev DualTerm := Key × List (List ℚ)

/-- A dual factor `JacobianFactor(Aterms, b)`. -/
structure DualFactor where
  Aterms : List DualTerm
  rhs : List ℚ
deriving Repr

abbrev DualGraph := List DualFactor

/-- Transpose of a single-row block (a row becomes a column). -/
def transposeRow (row : List ℚ) : List (List ℚ) :=
  row.map (fun a => [a])

/-- Modelled from the spec: `collectDualJacobians<LinearEquality>` (declared in
the header `QPSolver.h`, not among these sources) — for every equality
constraint touching `key`, the transpose of its coefficient block with respect
to `key`, paired with the constraint's dual key. -/
def collectDualJacobiansEq (key : Key) (equalities : List LinearEquality) :
    List DualTerm :=
  (equalities.filterMap (fun e =>
    (e.A.lookup key).map (fun blk => (e.dualKey, transposeRow blk))))

/-- Modelled from the spec: `collectDualJacobians<LinearInequality>` — the same
collection over the working set, restricted to *active* inequality
constraints touching `key`. -/
def collectDualJacobiansIneq (key : Key) (workingSet : List LinearInequality) :
    List DualTerm :=
  ((workingSet.filter (fun c => c.active)).filterMap (fun c =>
    (c.A.lookup key).map (fun blk => (c.dualKey, transposeRow blk))))

/-- The oracle interface to the external sparse linear solver and to the cost
factors' numeric payload (the spec's consumed collaborator interface):
`solve` is `GaussianFactorGraph::optimize()` on `baseGraph_` plus the supplied
active constraints, `dualSolve` is `optimize()` on a dual graph, `gradient`
is the gradient of cost factor `i` at a point. -/
structure Oracles where
  solve : List LinearInequality → VectorValues
  dualSolve : DualGraph → VectorValues
  gradient : Nat → Key → VectorValues → List ℚ

/-- Embeds `QPSolver::solveWithCurrentWorkingSet`: push every *active* factor of the
working set onto the base graph and optimize; the base graph and the
elimination are inside the black-box `solve`. -/
def solveWCWS (O : Oracles) (workingSet : List LinearInequality) : VectorValues :=
  O.solve (workingSet.filter (fun c => c.active))

/-- Embeds `QPSolver::createDualFactor`: Jacobian-transpose terms from equalities and
active inequalities touching `key`, with the summed cost gradients as the
right-hand side; an empty factor when no term touches `key`. -/
def createDualFactor (O : Oracles) (qp : QP) (key : Key)
    (workingSet : List LinearInequality) (delta : VectorValues) : DualFactor :=
  let Aterms := collectDualJacobiansEq key qp.equalities ++
    collectDualJacobiansIneq key workingSet
  if Aterms.length > 0 then
    let b := (((qp.cost.enum).filter (fun p => key ∈ p.2)).map
      (fun p => O.gradient p.1 key delta)).foldl
        (fun acc g => List.zipWith (· + ·) acc g)
        (List.replicate (vvGet delta key).length (0 : ℚ))
    ⟨Aterms, b⟩
  else
    ⟨[], []⟩

/-- Embeds `QPSolver::buildDualGraph`: one dual factor per constrained key, skipping
empty ones. -/
def buildDualGraph (O : Oracles) (qp : QP)
    (workingSet : List LinearInequality) (delta : VectorValues) : DualGraph :=
  ((constrainedKeys qp).map
    (fun key => createDualFactor O qp key workingSet delta)).filter
      (fun f => !f.Aterms.isEmpty)

/-- Embeds `lambdas.at(factor->dualKey())[0]`: the first component of the dual vector
at a dual key (total model of the checked access; theorems only read keys
whose vectors are present and non-empty). -/
def lambdaAt (lambdas : VectorValues) (k : Key) : ℚ :=
  (vvGet lambdas k).headD 0

/-- The loop body of `QPSolver::identifyLeavingConstraint`, tracking the index
`worstFactorIx` and running maximum `maxLambda` while scanning from absolute
index `ix`. -/
def ilcGo (lambdas : VectorValues) :
    List LinearInequality → Nat → Int → ℚ → Int
  | [], _, worst, _ => worst
  | c :: rest, ix, worst, maxLambda =>
    if c.active then
      let lam := lambdaAt lambdas c.dualKey
      if lam > maxLambda then ilcGo lambdas rest (ix + 1) ix lam
      else ilcGo lambdas rest (ix + 1) worst maxLambda
    else ilcGo lambdas rest (ix + 1) worst maxLambda

/-- Embeds `QPSolver::identifyLeavingConstraint`: index of the active constraint with
the strictly largest positive multiplier, or `-1`. -/
def identifyLeavingConstraint (workingSet : List LinearInequality)
    (lambdas : VectorValues) : Int :=
  ilcGo lambdas workingSet 0 (-1) 0

/-- The loop body of `QPSolver::computeStepSize`, tracking `minAlpha` and
`closestFactorIx` while scanning from absolute index `ix`. -/
def cssGo (xk p : VectorValues) :
    List LinearInequality → Nat → ℚ → Int → ℚ × Int
  | [], _, minAlpha, closest => (minAlpha, closest)
  | c :: rest, ix, minAlpha, closest =>
    if !c.active then
      let aTp := dotRow c p
      if aTp ≤ 0 then cssGo xk p rest (ix + 1) minAlpha closest
      else
        let alpha := (c.b - dotRow c xk) / aTp
        if alpha < minAlpha then cssGo xk p rest (ix + 1) alpha ix
        else cssGo xk p rest (ix + 1) minAlpha closest
    else cssGo xk p rest (ix + 1) minAlpha closest

/-- Embeds `QPSolver::computeStepSize`: the ratio test over inactive constraints,
starting from `minAlpha = 1.0`, `closestFactorIx = -1`. -/
def computeStepSize (workingSet : List LinearInequality)
    (xk p : VectorValues) : ℚ × Int :=
  cssGo xk p workingSet 0 1 (-1)

/-- The zero-progress tolerance `1e-7` of `iterate`, and the activation
tolerance `1e-7` of `identifyActiveConstraints`. -/
def tol7 : ℚ := 1 / 10000000

/-- Flip a working-set factor's flag to inactive (`at(ix)->inactivate()`). -/
def inactivateAt (ws : List LinearInequality) (ix : Nat) : List LinearInequality :=
  ws.set ix { ws.getD ix default with active := false }

/-- Flip a working-set factor's flag to active (`at(ix)->activate()`). -/
def activateAt (ws : List LinearInequality) (ix : Nat) : List LinearInequality :=
  ws.set ix { ws.getD ix default with active := true }

/-- Shape equality of two `VectorValues`: same keys in the same order, with
vectors of the same dimension per key (gtsam states over a fixed set of
variables all share this shape). -/
def sameShape (a b : VectorValues) : Prop :=
  a.map (fun q => (q.1, q.2.length)) = b.map (fun q => (q.1, q.2.length))

/-- Sum of the absolute values of a constraint row's coefficients. -/
def l1norm (c : LinearInequality) : ℚ :=
  (c.A.map (fun p => (p.2.map (fun a => |a|)).sum)).sum

/-- Every active constraint of `ws` is satisfied exactly at `v`. -/
def activeExactOn (ws : List LinearInequality) (v : VectorValues) : Prop :=
  ∀ c ∈ ws, c.active = true → dotRow c v = c.b

/-- Every inactive constraint of `ws` is satisfied non-strictly at `v`. -/
def inactiveFeasOn (ws : List LinearInequality) (v : VectorValues) : Prop :=
  ∀ c ∈ ws, c.active = false → dotRow c v ≤ c.b

/-- The structural data of a working-set factor, with the mutable activation
flag cleared: the part of a `LinearInequality` that no solver step changes. -/
def strip (c : LinearInequality) : LinearInequality :=
  ⟨c.A, c.b, c.dualKey, false⟩

/-- The dual keys (variables of the dual system) of one dual factor. -/
def dualFactorKeys (f : DualFactor) : List Key :=
  f.Aterms.map Prod.fst

/-- All dual keys of a dual graph; the variables over which the black-box
dual solve returns values. -/
def dualGraphKeys (g : DualGraph) : List Key :=
  (g.map dualFactorKeys).flatten

/-- A dual-solve oracle that is canonical on keys: it returns the zero vector
for exactly the variables of the dual graph, as `optimize()` does. -/
def zeroDualSolve (g : DualGraph) : VectorValues :=
  (dualGraphKeys g).map (fun k => (k, [0]))

/-- The store of activation flags, indexed by constraint position.  In the
C++ code the working set holds `shared_ptr`s to the factor objects, the
working set preserves the original constraint indexing, and copying a working
set copies the pointers; so the mutable flags live in this shared store,
position `i` holding the flag of factor object `i`. -/
abbrev FlagStore := List Bool

/-- Dereference: the working set as seen through the shared flag store. -/
def applyStore (ws : List LinearInequality) (st : FlagStore) : List LinearInequality :=
  List.zipWith (fun c f => { c with active := f }) ws st

/-- The solver state `QPState {values, duals, workingSet, converged, iterations}`. -/
structure QPState where
  values : VectorValues
  duals : VectorValues
  workingSet : List LinearInequality
  converged : Bool
  iterations : Nat
deriving Repr

/-- Embeds `QPSolver::iterate`: one step of the active-set method. -/
def iterate (O : Oracles) (qp : QP) (state : QPState) : QPState :=
  let newValues := solveWCWS O state.workingSet
  if vvEquals tol7 newValues state.values then
    let duals := O.dualSolve (buildDualGraph O qp state.workingSet newValues)
    let leavingFactor := identifyLeavingConstraint state.workingSet duals
    if leavingFactor < 0 then
      ⟨newValues, duals, state.workingSet, true, state.iterations + 1⟩
    else
      ⟨newValues, duals, inactivateAt state.workingSet leavingFactor.toNat,
        false, state.iterations + 1⟩
  else
    let p := vvSub newValues state.values
    let r := computeStepSize state.workingSet state.values p
    let newWorkingSet :=
      if r.2 ≥ 0 then activateAt state.workingSet r.2.toNat else state.workingSet
    ⟨vvAxpy state.values r.1 p, state.duals, newWorkingSet, false,
      state.iterations + 1⟩

/-- Heap-level rendering of `QPSolver::iterate`, making the sharing of the
C++ code explicit: the input state's working set is the pointer list `ws`
(positions) read through the shared `FlagStore`; the line
`InequalityFactorGraph newWorkingSet = state.workingSet` copies the pointers,
so `activate()` / `inactivate()` on the copy writes through to the store that
the input state also references.  Returns the fresh output state and the
store as left after the call. -/
def iterateH (O : Oracles) (qp : QP) (values duals : VectorValues)
    (iters : Nat) (ws : List LinearInequality) (st : FlagStore) :
    QPState × FlagStore :=
  let cur := applyStore ws st
  let newValues := solveWCWS O cur
  if vvEquals tol7 newValues values then
    let duals2 := O.dualSolve (buildDualGraph O qp cur newValues)
    let leavingFactor := identifyLeavingConstraint cur duals2
    if leavingFactor < 0 then
      (⟨newValues, duals2, cur, true, iters + 1⟩, st)
    else
      (⟨newValues, duals2, inactivateAt cur leavingFactor.toNat, false, iters + 1⟩,
        st.set leavingFactor.toNat false)
  else
    let p := vvSub newValues values
    let r := computeStepSize cur values p
    let st2 := if r.2 ≥ 0 then st.set r.2.toNat true else st
    let ws2 := if r.2 ≥ 0 then activateAt cur r.2.toNat else cur
    (⟨vvAxpy values r.1 p, duals, ws2, false, iters + 1⟩, st2)

/-- The exception `InfeasibleInitialValues`. -/
structure InfeasibleInitialValues where
deriving DecidableEq, Repr

/-- Initialization of one working factor in
`QPSolver::identifyActiveConstraints` (the loop body). -/
def initWorkingFactor (initialValues duals : VectorValues) (useWarmStart : Bool)
    (factor : LinearInequality) :
    Except InfeasibleInitialValues LinearInequality :=
  if useWarmStart && vvExists duals factor.dualKey then
    .ok { factor with active := true }
  else if useWarmStart && vvSize duals > 0 then
    .ok { factor with active := false }
  else
    let error := ineqError factor initialValues
    if error > 0 then .error ⟨⟩
    else if |error| < tol7 then .ok { factor with active := true }
    else .ok { factor with active := false }

/-- Embeds `QPSolver::identifyActiveConstraints`: build the initial working set, one
flagged copy per inequality constraint, preserving the original indexing;
throws `InfeasibleInitialValues` on a strictly positive cold-start violation. -/
def identifyActiveConstraints (inequalities : List LinearInequality)
    (initialValues duals : VectorValues) (useWarmStart : Bool) :
    Except InfeasibleInitialValues (List LinearInequality) :=
  inequalities.mapM (initWorkingFactor initialValues duals useWarmStart)

/-- The `while (!state.converged)` loop of `QPSolver::optimize`, with explicit
fuel; `some` exactly when a converged state is reached within `fuel` steps. -/
def runLoop (O : Oracles) (qp : QP) : Nat → QPState → Option QPState
  | 0, s => if s.converged then some s else none
  | n + 1, s => if s.converged then some s else runLoop O qp n (iterate O qp s)

/-- Embeds `QPSolver::optimize`: build the initial working set, loop `iterate` until
convergence, return `{finalValues, finalDuals}`. -/
def optimize (O : Oracles) (qp : QP) (fuel : Nat)
    (initialValues duals : VectorValues) (useWarmStart : Bool) :
    Except InfeasibleInitialValues (Option (VectorValues × VectorValues)) :=
  (identifyActiveConstraints qp.inequalities initialValues duals
    useWarmStart).map (fun workingSet =>
      (runLoop O qp fuel ⟨initialValues, duals, workingSet, false, 0⟩).map
        (fun s => (s.values, s.duals)))

/-! ## Basic lemmas about the `VectorValues` operations -/

@[simp] lemma vvGet_nil (k : Key) : vvGet [] k = [] := rfl

@[simp] lemma vvGet_cons (k k' : Key) (xs : List ℚ) (r : VectorValues) :
    vvGet ((k', xs) :: r) k = if k' = k then xs else vvGet r k := by
  rcases eq_or_ne k' k with h | h
  · subst h; simp [vvGet, List.lookup]
  · have hb : (k == k') = false := by simp [Ne.symm h]
    simp only [vvGet, List.lookup, hb, if_neg h]

@[simp] lemma exceptMap_ok {α β ε : Type} (f : α → β) (a : α) :
    (f <$> (Except.ok a : Except ε α)) = .ok (f a) := rfl

@[simp] lemma exceptMap_error {α β ε : Type} (f : α → β) (e : ε) :
    (f <$> (Except.error e : Except ε α)) = .error e := rfl

@[simp] lemma exceptBind_ok {α β ε : Type} (f : α → Except ε β) (a : α) :
    ((Except.ok a : Except ε α) >>= f) = f a := rfl

@[simp] lemma exceptBind_error {α β ε : Type} (f : α → Except ε β) (e : ε) :
    ((Except.error e : Except ε α) >>= f) = .error e := rfl

lemma vvGet_vvAxpy (x p : VectorValues) (alpha : ℚ) (k : Key) :
    vvGet (vvAxpy x alpha p) k =
      List.zipWith (fun xi pi => xi + alpha * pi) (vvGet x k) (vvGet p k) := by
  induction x with
  | nil => simp [vvAxpy]
  | cons q r ih =>
      obtain ⟨k', xs⟩ := q
      by_cases h : k' = k <;> simp [vvAxpy, h] <;> simpa [vvAxpy] using ih

lemma vvGet_vvSub (a b : VectorValues) (k : Key) :
    vvGet (vvSub a b) k = List.zipWith (· - ·) (vvGet a k) (vvGet b k) := by
  induction a with
  | nil => simp [vvSub]
  | cons q r ih =>
      obtain ⟨k', xs⟩ := q
      by_cases h : k' = k <;> simp [vvSub, h] <;> simpa [vvSub] using ih

lemma dotQ_nil (x : List ℚ) : dotQ [] x = 0 := rfl

lemma dotQ_zipWith_axpy (alpha : ℚ) :
    ∀ (a xs ps : List ℚ), xs.length = ps.length →
      dotQ a (List.zipWith (fun xi pi => xi + alpha * pi) xs ps) =
        dotQ a xs + alpha * dotQ a ps
  | [], _, _, _ => by simp [dotQ]
  | _ :: _, [], ps, h => by
      simp [dotQ, (List.length_eq_zero.mp h.symm)]
  | _ :: _, _ :: _, [], h => by simp at h
  | ai :: a, xi :: xs, pi :: ps, h => by
      have ih := dotQ_zipWith_axpy alpha a xs ps (by simpa using h)
      simp only [List.zipWith_cons_cons, dotQ, List.sum_cons] at ih ⊢
      ring_nf
      ring_nf at ih
      linarith

lemma dotQ_zipWith_sub :
    ∀ (a xs ys : List ℚ), xs.length = ys.length →
      dotQ a (List.zipWith (· - ·) xs ys) = dotQ a xs - dotQ a ys
  | [], _, _, _ => by simp [dotQ]
  | _ :: _, [], ys, h => by
      simp [dotQ, (List.length_eq_zero.mp h.symm)]
  | _ :: _, _ :: _, [], h => by simp at h
  | ai :: a, xi :: xs, yi :: ys, h => by
      have ih := dotQ_zipWith_sub a xs ys (by simpa using h)
      simp only [List.zipWith_cons_cons, dotQ, List.sum_cons] at ih ⊢
      ring_nf
      ring_nf at ih
      linarith

lemma sameShape_vvGet_len {a b : VectorValues} (h : sameShape a b) (k : Key) :
    (vvGet a k).length = (vvGet b k).length := by
  induction a generalizing b with
  | nil =>
      cases b with
      | nil => rfl
      | cons q r => simp [sameShape] at h
  | cons q r ih =>
      cases b with
      | nil => simp [sameShape] at h
      | cons q' r' =>
          obtain ⟨k₁, xs⟩ := q
          obtain ⟨k₂, ys⟩ := q'
          simp only [sameShape, List.map_cons, List.cons.injEq, Prod.mk.injEq] at h
          obtain ⟨⟨hk, hlen⟩, htail⟩ := h
          subst hk
          by_cases hkk : k₁ = k
          · simp [hkk, hlen]
          · simpa [hkk] using ih htail

lemma dotRow_vvAxpy (c : LinearInequality) (x p : VectorValues) (alpha : ℚ)
    (h : ∀ k, (vvGet x k).length = (vvGet p k).length) :
    dotRow c (vvAxpy x alpha p) = dotRow c x + alpha * dotRow c p := by
  unfold dotRow
  induction c.A with
  | nil => simp
  | cons q L ih =>
      simp only [List.map_cons, List.sum_cons, ih]
      rw [vvGet_vvAxpy, dotQ_zipWith_axpy alpha _ _ _ (h q.1)]
      ring

lemma dotRow_vvSub (c : LinearInequality) (a b : VectorValues)
    (h : ∀ k, (vvGet a k).length = (vvGet b k).length) :
    dotRow c (vvSub a b) = dotRow c a - dotRow c b := by
  unfold dotRow
  induction c.A with
  | nil => simp
  | cons q L ih =>
      simp only [List.map_cons, List.sum_cons, ih]
      rw [vvGet_vvSub, dotQ_zipWith_sub _ _ _ (h q.1)]
      ring

lemma dotRow_step (c : LinearInequality) (nv x : VectorValues) (alpha : ℚ)
    (h : sameShape nv x) :
    dotRow c (vvAxpy x alpha (vvSub nv x)) =
      dotRow c x + alpha * (dotRow c nv - dotRow c x) := by
  have hlen : ∀ k, (vvGet nv k).length = (vvGet x k).length :=
    fun k => sameShape_vvGet_len h k
  have hlen2 : ∀ k, (vvGet x k).length = (vvGet (vvSub nv x) k).length := by
    intro k
    rw [vvGet_vvSub, List.length_zipWith, hlen k, Nat.min_self]
  rw [dotRow_vvAxpy c x _ alpha hlen2, dotRow_vvSub c nv x hlen]

/-! ## Lemmas about `vvEquals` and approximate feasibility slack -/

lemma listApproxEq_refl {tol : ℚ} (htol : 0 ≤ tol) :
    ∀ xs : List ℚ, listApproxEq tol xs xs = true
  | [] => rfl
  | x :: xs => by
      simp [listApproxEq, listApproxEq_refl htol xs, htol]

lemma vvEquals_refl {tol : ℚ} (htol : 0 ≤ tol) :
    ∀ a : VectorValues, vvEquals tol a a = true
  | [] => rfl
  | (k, xs) :: r => by
      simp [vvEquals, listApproxEq_refl htol xs, vvEquals_refl htol r]

lemma listApproxEq_length {tol : ℚ} :
    ∀ {xs ys : List ℚ}, listApproxEq tol xs ys = true → xs.length = ys.length
  | [], [], _ => rfl
  | [], _ :: _, h => by simp [listApproxEq] at h
  | _ :: _, [], h => by simp [listApproxEq] at h
  | _ :: xs, _ :: ys, h => by
      simp only [listApproxEq, Bool.and_eq_true] at h
      simpa using listApproxEq_length h.2

lemma vvEquals_listApproxEq {tol : ℚ} :
    ∀ {a b : VectorValues}, vvEquals tol a b = true →
      ∀ k, listApproxEq tol (vvGet a k) (vvGet b k) = true
  | [], [], _, k => rfl
  | [], _ :: _, h, _ => by simp [vvEquals] at h
  | _ :: _, [], h, _ => by simp [vvEquals] at h
  | (k₁, xs) :: r, (k₂, ys) :: r', h, k => by
      simp only [vvEquals, Bool.and_eq_true, decide_eq_true_eq] at h
      obtain ⟨⟨hk, hxy⟩, htail⟩ := h
      subst hk
      by_cases hkk : k₁ = k
      · simpa [hkk] using hxy
      · simpa [hkk] using vvEquals_listApproxEq htail k

lemma vvEquals_sameShape {tol : ℚ} :
    ∀ {a b : VectorValues}, vvEquals tol a b = true → sameShape a b
  | [], [], _ => rfl
  | [], _ :: _, h => by simp [vvEquals] at h
  | _ :: _, [], h => by simp [vvEquals] at h
  | (k₁, xs) :: r, (k₂, ys) :: r', h => by
      simp only [vvEquals, Bool.and_eq_true, decide_eq_true_eq] at h
      obtain ⟨⟨hk, hxy⟩, htail⟩ := h
      subst hk
      have := vvEquals_sameShape htail
      simp only [sameShape, List.map_cons, List.cons.injEq, Prod.mk.injEq]
      exact ⟨⟨trivial, listApproxEq_length hxy⟩, this⟩

lemma sum_abs_nonneg (l : List ℚ) : 0 ≤ (l.map (fun v => |v|)).sum := by
  apply List.sum_nonneg
  intro y hy
  obtain ⟨v, _, rfl⟩ := List.mem_map.mp hy
  exact abs_nonneg v

lemma abs_dotQ_sub_le {tol : ℚ} (htol : 0 ≤ tol) :
    ∀ (a xs ys : List ℚ), listApproxEq tol xs ys = true →
      |dotQ a xs - dotQ a ys| ≤ tol * (a.map (fun v => |v|)).sum
  | [], xs, ys, _ => by
      simp only [dotQ, List.zipWith_nil_left, List.sum_nil, List.map_nil, sub_zero,
        abs_zero, mul_zero, le_refl]
  | ai :: a, [], ys, h => by
      cases ys with
      | nil =>
          simp only [dotQ, List.zipWith_nil_right, List.sum_nil, sub_zero, abs_zero]
          exact mul_nonneg htol (sum_abs_nonneg _)
      | cons y ys => simp [listApproxEq] at h
  | ai :: a, x :: xs, ys, h => by
      cases ys with
      | nil => simp [listApproxEq] at h
      | cons y ys =>
          simp only [listApproxEq, Bool.and_eq_true, decide_eq_true_eq] at h
          obtain ⟨hxy, htail⟩ := h
          have ih := abs_dotQ_sub_le htol a xs ys htail
          simp only [dotQ, List.zipWith_cons_cons, List.sum_cons, List.map_cons] at ih ⊢
          have h1 : |ai * x - ai * y| ≤ |ai| * tol := by
            rw [← mul_sub, abs_mul]
            exact mul_le_mul_of_nonneg_left hxy (abs_nonneg ai)
          calc |ai * x + (List.zipWith (· * ·) a xs).sum -
                (ai * y + (List.zipWith (· * ·) a ys).sum)|
              ≤ |ai * x - ai * y| +
                |(List.zipWith (· * ·) a xs).sum - (List.zipWith (· * ·) a ys).sum| := by
                have := abs_add (ai * x - ai * y)
                  ((List.zipWith (· * ·) a xs).sum - (List.zipWith (· * ·) a ys).sum)
                calc _ = |(ai * x - ai * y) +
                    ((List.zipWith (· * ·) a xs).sum - (List.zipWith (· * ·) a ys).sum)| := by
                      congr 1; ring
                  _ ≤ _ := this
            _ ≤ |ai| * tol + tol * (a.map (fun v => |v|)).sum := add_le_add h1 ih
            _ = tol * (|ai| + (a.map (fun v => |v|)).sum) := by ring

lemma abs_dotRow_sub_le {tol : ℚ} (htol : 0 ≤ tol) (c : LinearInequality)
    {a b : VectorValues} (h : vvEquals tol a b = true) :
    |dotRow c a - dotRow c b| ≤ tol * l1norm c := by
  unfold dotRow l1norm
  induction c.A with
  | nil => simp
  | cons q L ih =>
      simp only [List.map_cons, List.sum_cons]
      have h1 := abs_dotQ_sub_le htol q.2 _ _ (vvEquals_listApproxEq h q.1)
      calc |dotQ q.2 (vvGet a q.1) + (L.map (fun p => dotQ p.2 (vvGet a p.1))).sum -
            (dotQ q.2 (vvGet b q.1) + (L.map (fun p => dotQ p.2 (vvGet b p.1))).sum)|
          ≤ |dotQ q.2 (vvGet a q.1) - dotQ q.2 (vvGet b q.1)| +
            |(L.map (fun p => dotQ p.2 (vvGet a p.1))).sum -
              (L.map (fun p => dotQ p.2 (vvGet b p.1))).sum| := by
            have := abs_add (dotQ q.2 (vvGet a q.1) - dotQ q.2 (vvGet b q.1))
              ((L.map (fun p => dotQ p.2 (vvGet a p.1))).sum -
                (L.map (fun p => dotQ p.2 (vvGet b p.1))).sum)
            calc _ = |(dotQ q.2 (vvGet a q.1) - dotQ q.2 (vvGet b q.1)) +
                ((L.map (fun p => dotQ p.2 (vvGet a p.1))).sum -
                  (L.map (fun p => dotQ p.2 (vvGet b p.1))).sum)| := by congr 1; ring
              _ ≤ _ := this
        _ ≤ tol * (q.2.map (fun v => |v|)).sum +
            tol * (L.map (fun p => (p.2.map (fun v => |v|)).sum)).sum := add_le_add h1 ih
        _ = tol * ((q.2.map (fun v => |v|)).sum +
            (L.map (fun p => (p.2.map (fun v => |v|)).sum)).sum) := by ring

lemma l1norm_nonneg (c : LinearInequality) : 0 ≤ l1norm c := by
  unfold l1norm
  apply List.sum_nonneg
  intro x hx
  obtain ⟨p, _, rfl⟩ := List.mem_map.mp hx
  exact sum_abs_nonneg _

/-! ## The ratio-test fold invariant -/

lemma cssGo_spec (xk p : VectorValues) :
    ∀ (l : List LinearInequality) (ix : Nat) (minA : ℚ) (cl : Int),
      (cssGo xk p l ix minA cl).1 ≤ minA ∧
      (∀ i, (h : i < l.length) → (l.get ⟨i, h⟩).active = false →
          0 < dotRow (l.get ⟨i, h⟩) p →
          (cssGo xk p l ix minA cl).1 ≤
            ((l.get ⟨i, h⟩).b - dotRow (l.get ⟨i, h⟩) xk) / dotRow (l.get ⟨i, h⟩) p) ∧
      (((cssGo xk p l ix minA cl).1 = minA ∧ (cssGo xk p l ix minA cl).2 = cl) ∨
        (∃ m, ∃ h : m < l.length,
          (cssGo xk p l ix minA cl).2 = ((ix + m : Nat) : Int) ∧
          (l.get ⟨m, h⟩).active = false ∧
          0 < dotRow (l.get ⟨m, h⟩) p ∧
          (cssGo xk p l ix minA cl).1 =
            ((l.get ⟨m, h⟩).b - dotRow (l.get ⟨m, h⟩) xk) / dotRow (l.get ⟨m, h⟩) p ∧
          (cssGo xk p l ix minA cl).1 < minA)) := by
  intro l
  induction l with
  | nil =>
      intro ix minA cl
      refine ⟨le_refl _, ?_, Or.inl ⟨rfl, rfl⟩⟩
      intro i h
      exact absurd h (by simp)
  | cons c rest ih =>
      intro ix minA cl
      by_cases hact : c.active = false
      · by_cases hdir : dotRow c p ≤ 0
        · -- inactive but the direction cannot violate it: skipped
          have hgo : cssGo xk p (c :: rest) ix minA cl = cssGo xk p rest (ix + 1) minA cl := by
            simp [cssGo, hact, hdir]
          obtain ⟨ih1, ih2, ih3⟩ := ih (ix + 1) minA cl
          rw [hgo]
          refine ⟨ih1, ?_, ?_⟩
          · intro i h hia hd
            match i with
            | 0 => exact absurd hd (by simpa [List.get] using not_lt.mpr hdir)
            | Nat.succ j => exact ih2 j (by simpa using h) hia hd
          · rcases ih3 with h3 | ⟨m, hm, hres, hma, hmd, hval, hlt⟩
            · exact Or.inl h3
            · refine Or.inr ⟨m + 1, by simpa using hm, ?_, hma, hmd, hval, hlt⟩
              rw [hres]; congr 1; omega
        · -- inactive and 0 < dotRow c p: the ratio is computed
          push_neg at hdir
          set alpha := (c.b - dotRow c xk) / dotRow c p with halpha
          by_cases hlt : alpha < minA
          · have hgo : cssGo xk p (c :: rest) ix minA cl =
                cssGo xk p rest (ix + 1) alpha ix := by
              simp [cssGo, hact, not_le.mpr hdir, hlt, halpha]
            obtain ⟨ih1, ih2, ih3⟩ := ih (ix + 1) alpha ix
            rw [hgo]
            refine ⟨le_trans ih1 (le_of_lt hlt), ?_, ?_⟩
            · intro i h hia hd
              match i with
              | 0 => exact le_trans ih1 (by simp [List.get, halpha])
              | Nat.succ j => exact ih2 j (by simpa using h) hia hd
            · rcases ih3 with ⟨hv, hc⟩ | ⟨m, hm, hres, hma, hmd, hval, hlt2⟩
              · refine Or.inr ⟨0, by simp, ?_, by simpa using hact, by simpa using hdir,
                  by simpa [List.get] using hv, by rw [hv]; exact hlt⟩
                rw [hc]; simp
              · refine Or.inr ⟨m + 1, by simpa using hm, ?_, hma, hmd, hval,
                  lt_trans hlt2 hlt⟩
                rw [hres]; congr 1; omega
          · have hgo : cssGo xk p (c :: rest) ix minA cl =
                cssGo xk p rest (ix + 1) minA cl := by
              simp [cssGo, hact, not_le.mpr hdir, hlt, halpha]
            obtain ⟨ih1, ih2, ih3⟩ := ih (ix + 1) minA cl
            rw [hgo]
            refine ⟨ih1, ?_, ?_⟩
            · intro i h hia hd
              match i with
              | 0 => exact le_trans ih1 (by simpa [List.get, halpha] using not_lt.mp hlt)
              | Nat.succ j => exact ih2 j (by simpa using h) hia hd
            · rcases ih3 with h3 | ⟨m, hm, hres, hma, hmd, hval, hlt2⟩
              · exact Or.inl h3
              · refine Or.inr ⟨m + 1, by simpa using hm, ?_, hma, hmd, hval, hlt2⟩
                rw [hres]; congr 1; omega
      · -- active: skipped
        have hact2 : c.active = true := by revert hact; cases c.active <;> simp
        have hgo : cssGo xk p (c :: rest) ix minA cl = cssGo xk p rest (ix + 1) minA cl := by
          simp [cssGo, hact2]
        obtain ⟨ih1, ih2, ih3⟩ := ih (ix + 1) minA cl
        rw [hgo]
        refine ⟨ih1, ?_, ?_⟩
        · intro i h hia hd
          match i with
          | 0 => exact absurd hia (by simp [List.get, hact2])
          | Nat.succ j => exact ih2 j (by simpa using h) hia hd
        · rcases ih3 with h3 | ⟨m, hm, hres, hma, hmd, hval, hlt⟩
          · exact Or.inl h3
          · refine Or.inr ⟨m + 1, by simpa using hm, ?_, hma, hmd, hval, hlt⟩
            rw [hres]; congr 1; omega

/-! ## The leaving-constraint fold invariant -/

lemma ilcGo_spec (lambdas : VectorValues) :
    ∀ (l : List LinearInequality) (ix : Nat) (worst : Int) (maxL : ℚ),
      ((ilcGo lambdas l ix worst maxL = worst ∧
        ∀ i, (h : i < l.length) → (l.get ⟨i, h⟩).active = true →
          lambdaAt lambdas (l.get ⟨i, h⟩).dualKey ≤ maxL) ∨
       (∃ m, ∃ h : m < l.length,
          ilcGo lambdas l ix worst maxL = ((ix + m : Nat) : Int) ∧
          (l.get ⟨m, h⟩).active = true ∧
          maxL < lambdaAt lambdas (l.get ⟨m, h⟩).dualKey ∧
          (∀ i, (h2 : i < l.length) → (l.get ⟨i, h2⟩).active = true →
            lambdaAt lambdas (l.get ⟨i, h2⟩).dualKey ≤
              lambdaAt lambdas (l.get ⟨m, h⟩).dualKey) ∧
          (∀ i, (h2 : i < l.length) → i < m → (l.get ⟨i, h2⟩).active = true →
            lambdaAt lambdas (l.get ⟨i, h2⟩).dualKey <
              lambdaAt lambdas (l.get ⟨m, h⟩).dualKey))) := by
  intro l
  induction l with
  | nil =>
      intro ix worst maxL
      refine Or.inl ⟨rfl, ?_⟩
      intro i h
      exact absurd h (by simp)
  | cons c rest ih =>
      intro ix worst maxL
      by_cases hact : c.active = true
      · by_cases hgt : lambdaAt lambdas c.dualKey > maxL
        · -- the running maximum is replaced by c
          have hgo : ilcGo lambdas (c :: rest) ix worst maxL =
              ilcGo lambdas rest (ix + 1) ix (lambdaAt lambdas c.dualKey) := by
            simp [ilcGo, hact, hgt]
          rw [hgo]
          rcases ih (ix + 1) ix (lambdaAt lambdas c.dualKey) with
            ⟨hres, hbound⟩ | ⟨m, hm, hres, hma, hmgt, hble, hbst⟩
          · refine Or.inr ⟨0, by simp, by rw [hres]; simp, by simpa [List.get] using hact,
              by simpa [List.get] using hgt, ?_, ?_⟩
            · intro i h2 hia
              match i with
              | 0 => simp [List.get]
              | Nat.succ j => exact hbound j (by simpa using h2) hia
            · intro i h2 him
              exact absurd him (by omega)
          · refine Or.inr ⟨m + 1, by simpa using hm, ?_, hma, lt_trans hgt hmgt, ?_, ?_⟩
            · rw [hres]; congr 1; omega
            · intro i h2 hia
              match i with
              | 0 => exact le_of_lt (by simpa [List.get] using hmgt)
              | Nat.succ j => exact hble j (by simpa using h2) hia
            · intro i h2 him hia
              match i with
              | 0 => simpa [List.get] using hmgt
              | Nat.succ j => exact hbst j (by simpa using h2) (by omega) hia
        · -- active but not above the running maximum
          have hgo : ilcGo lambdas (c :: rest) ix worst maxL =
              ilcGo lambdas rest (ix + 1) worst maxL := by
            simp [ilcGo, hact, hgt]
          rw [hgo]
          rcases ih (ix + 1) worst maxL with
            ⟨hres, hbound⟩ | ⟨m, hm, hres, hma, hmgt, hble, hbst⟩
          · refine Or.inl ⟨hres, ?_⟩
            intro i h2 hia
            match i with
            | 0 => simpa [List.get] using not_lt.mp hgt
            | Nat.succ j => exact hbound j (by simpa using h2) hia
          · refine Or.inr ⟨m + 1, by simpa using hm, ?_, hma, hmgt, ?_, ?_⟩
            · rw [hres]; congr 1; omega
            · intro i h2 hia
              match i with
              | 0 =>
                  exact le_trans (by simpa [List.get] using not_lt.mp hgt) (le_of_lt hmgt)
              | Nat.succ j => exact hble j (by simpa using h2) hia
            · intro i h2 him hia
              match i with
              | 0 => exact lt_of_le_of_lt (by simpa [List.get] using not_lt.mp hgt) hmgt
              | Nat.succ j => exact hbst j (by simpa using h2) (by omega) hia
      · -- inactive: skipped
        have hact2 : c.active = false := by revert hact; cases c.active <;> simp
        have hgo : ilcGo lambdas (c :: rest) ix worst maxL =
            ilcGo lambdas rest (ix + 1) worst maxL := by
          simp [ilcGo, hact2]
        rw [hgo]
        rcases ih (ix + 1) worst maxL with
          ⟨hres, hbound⟩ | ⟨m, hm, hres, hma, hmgt, hble, hbst⟩
        · refine Or.inl ⟨hres, ?_⟩
          intro i h2 hia
          match i with
          | 0 => exact absurd hia (by simp [List.get, hact2])
          | Nat.succ j => exact hbound j (by simpa using h2) hia
        · refine Or.inr ⟨m + 1, by simpa using hm, ?_, hma, hmgt, ?_, ?_⟩
          · rw [hres]; congr 1; omega
          · intro i h2 hia
            match i with
            | 0 => exact absurd hia (by simp [List.get, hact2])
            | Nat.succ j => exact hble j (by simpa using h2) hia
          · intro i h2 him hia
            match i with
            | 0 => exact absurd hia (by simp [List.get, hact2])
            | Nat.succ j => exact hbst j (by simpa using h2) (by omega) hia

/-! ## Index access helper -/

lemma getD_get (l : List LinearInequality) (i : Nat) (h : i < l.length) :
    l.getD i default = l.get ⟨i, h⟩ := by
  rw [List.getD_eq_getElem l default h]
  simp [List.get_eq_getElem]

/-- C4: `identifyLeavingConstraint` considers only active inequality
constraints, reads the first component of the dual vector at each one's dual
key (`lambdaAt`), and returns the index of the constraint with the strictly
largest positive multiplier — first encountered wins on ties, threshold `0.0`
so multipliers `≤ 0` are never chosen — or the sentinel `-1` if no active
constraint has a strictly positive multiplier. -/
theorem identifyLeavingConstraint_spec (ws : List LinearInequality)
    (lambdas : VectorValues) :
    (identifyLeavingConstraint ws lambdas = -1 ↔
      ∀ i, i < ws.length → (ws.getD i default).active = true →
        lambdaAt lambdas (ws.getD i default).dualKey ≤ 0) ∧
    (∀ j : Nat, identifyLeavingConstraint ws lambdas = (j : Int) →
      j < ws.length ∧ (ws.getD j default).active = true ∧
      0 < lambdaAt lambdas (ws.getD j default).dualKey ∧
      (∀ i, i < ws.length → (ws.getD i default).active = true →
        lambdaAt lambdas (ws.getD i default).dualKey ≤
          lambdaAt lambdas (ws.getD j default).dualKey) ∧
      (∀ i, i < j → (ws.getD i default).active = true →
        lambdaAt lambdas (ws.getD i default).dualKey <
          lambdaAt lambdas (ws.getD j default).dualKey)) ∧
    (identifyLeavingConstraint ws lambdas = -1 ∨
      ∃ j : Nat, identifyLeavingConstraint ws lambdas = (j : Int) ∧ j < ws.length) := by
  have spec := ilcGo_spec lambdas ws 0 (-1) 0
  have hilc : identifyLeavingConstraint ws lambdas = ilcGo lambdas ws 0 (-1) 0 := rfl
  refine ⟨⟨?_, ?_⟩, ?_, ?_⟩
  · intro hneg i hi hia
    rcases spec with ⟨_, hbound⟩ | ⟨m, hm, hres, _, _, _, _⟩
    · rw [getD_get ws i hi] at hia ⊢
      exact hbound i hi hia
    · rw [hilc, hres] at hneg
      omega
  · intro hall
    rcases spec with ⟨hres, _⟩ | ⟨m, hm, hres, hma, hmgt, _, _⟩
    · rw [hilc, hres]
    · exfalso
      have := hall m (by omega) (by rw [getD_get ws m hm]; exact hma)
      rw [getD_get ws m hm] at this
      linarith
  · intro j hj
    rcases spec with ⟨hres, _⟩ | ⟨m, hm, hres, hma, hmgt, hble, hbst⟩
    · rw [hilc, hres] at hj
      omega
    · rw [hilc, hres] at hj
      have hjm : j = m := by omega
      subst hjm
      refine ⟨hm, by rw [getD_get ws j hm]; exact hma,
        by rw [getD_get ws j hm]; linarith, ?_, ?_⟩
      · intro i hi hia
        rw [getD_get ws i hi] at hia ⊢
        rw [getD_get ws j hm]
        exact hble i hi hia
      · intro i hij hia
        have hi : i < ws.length := by omega
        rw [getD_get ws i hi] at hia ⊢
        rw [getD_get ws j hm]
        exact hbst i hi hij hia
  · rcases spec with ⟨hres, _⟩ | ⟨m, hm, hres, _, _, _, _⟩
    · exact Or.inl (by rw [hilc, hres])
    · exact Or.inr ⟨m, by rw [hilc, hres]; congr 1; omega, hm⟩

/-- Witness for C4 at a concrete working set with a tie between two active
multipliers: the first index wins. -/
theorem identifyLeavingConstraint_spec_witness :
    identifyLeavingConstraint [⟨[], 0, 50, true⟩, ⟨[], 0, 51, true⟩]
        [(50, [2]), (51, [2])] = ((0 : Nat) : Int) ∧
      0 < ([⟨[], 0, 50, true⟩, ⟨[], 0, 51, true⟩] : List LinearInequality).length ∧
      (([⟨[], 0, 50, true⟩, ⟨[], 0, 51, true⟩] :
          List LinearInequality).getD 0 default).active = true ∧
      0 < lambdaAt [(50, [2]), (51, [2])]
        (([⟨[], 0, 50, true⟩, ⟨[], 0, 51, true⟩] :
          List LinearInequality).getD 0 default).dualKey := by
  have hr : identifyLeavingConstraint [⟨[], 0, 50, true⟩, ⟨[], 0, 51, true⟩]
      [(50, [2]), (51, [2])] = ((0 : Nat) : Int) := by
    norm_num [identifyLeavingConstraint, ilcGo, lambdaAt]
  have h := (identifyLeavingConstraint_spec
    [⟨[], 0, 50, true⟩, ⟨[], 0, 51, true⟩] [(50, [2]), (51, [2])]).2.1 0 hr
  exact ⟨hr, h.1, h.2.1, h.2.2.1⟩

/-- C5 (counterexample): for a single inactive constraint with `aᵀp > 0` whose
ratio exceeds the full step, `computeStepSize` caps the step at `1.0` and the
claimed identity `aᵀ(x + α·p) = b` fails: here `a = [1]`, `b = 10`, `x = 0`,
`p = 1`, so `α = 1` and `aᵀ(x + α·p) = 1 ≠ 10`. -/
theorem computeStepSize_single_cex :
    (⟨[(0, [1])], 10, 9, false⟩ : LinearInequality).active = false ∧
    0 < dotRow ⟨[(0, [1])], 10, 9, false⟩ [(0, [1])] ∧
    dotRow (⟨[(0, [1])], 10, 9, false⟩ : LinearInequality)
      (vvAxpy [(0, [0])]
        (computeStepSize [⟨[(0, [1])], 10, 9, false⟩] [(0, [0])] [(0, [1])]).1
        [(0, [1])]) ≠
      (⟨[(0, [1])], 10, 9, false⟩ : LinearInequality).b := by
  refine ⟨rfl, by norm_num [dotRow, dotQ], ?_⟩
  have hcss : (computeStepSize [⟨[(0, [1])], 10, 9, false⟩] [(0, [0])] [(0, [1])]).1 = 1 := by
    norm_num [computeStepSize, cssGo, dotRow, dotQ]
  rw [hcss]
  norm_num [dotRow, dotQ, vvAxpy]

/-- C5 (amended): for a working set holding a single inactive constraint with
`aᵀp > 0` that binds within the full step (`(b - aᵀx)/(aᵀp) ≤ 1`), the step
length returned by `computeStepSize` is that ratio and satisfies
`aᵀ(x + α·p) = b` exactly; without the binding hypothesis the step is capped
at `1.0`. -/
theorem computeStepSize_single_exact (c : LinearInequality) (x p : VectorValues)
    (hact : c.active = false) (hdir : 0 < dotRow c p)
    (hbind : (c.b - dotRow c x) / dotRow c p ≤ 1)
    (hsh : ∀ k, (vvGet x k).length = (vvGet p k).length) :
    (computeStepSize [c] x p).1 = (c.b - dotRow c x) / dotRow c p ∧
    dotRow c (vvAxpy x (computeStepSize [c] x p).1 p) = c.b := by
  have hne : dotRow c p ≠ 0 := ne_of_gt hdir
  have halpha : (computeStepSize [c] x p).1 = (c.b - dotRow c x) / dotRow c p := by
    by_cases hlt : (c.b - dotRow c x) / dotRow c p < 1
    · simp [computeStepSize, cssGo, hact, not_le.mpr hdir, hlt]
    · have heq : (c.b - dotRow c x) / dotRow c p = 1 := le_antisymm hbind (not_lt.mp hlt)
      simp [computeStepSize, cssGo, hact, not_le.mpr hdir, hlt, heq]
  refine ⟨halpha, ?_⟩
  rw [halpha, dotRow_vvAxpy c x p _ hsh, div_mul_cancel₀ _ hne]
  ring

/-- Witness for C5 (amended) at `a = [1]`, `b = 1/2`, `x = 0`, `p = 1`:
the ratio `1/2` binds within the full step and the stepped point meets the
bound exactly. -/
theorem computeStepSize_single_exact_witness :
    (⟨[(0, [1])], 1/2, 9, false⟩ : LinearInequality).active = false ∧
    0 < dotRow ⟨[(0, [1])], 1/2, 9, false⟩ [(0, [1])] ∧
    ((⟨[(0, [1])], 1/2, 9, false⟩ : LinearInequality).b -
        dotRow ⟨[(0, [1])], 1/2, 9, false⟩ [(0, [0])]) /
        dotRow ⟨[(0, [1])], 1/2, 9, false⟩ [(0, [1])] ≤ 1 ∧
    dotRow (⟨[(0, [1])], 1/2, 9, false⟩ : LinearInequality)
      (vvAxpy [(0, [0])]
        (computeStepSize [⟨[(0, [1])], 1/2, 9, false⟩] [(0, [0])] [(0, [1])]).1
        [(0, [1])]) =
      (⟨[(0, [1])], 1/2, 9, false⟩ : LinearInequality).b := by
  have h1 : 0 < dotRow (⟨[(0, [1])], 1/2, 9, false⟩ : LinearInequality) [(0, [1])] := by
    norm_num [dotRow, dotQ]
  have h2 : ((⟨[(0, [1])], 1/2, 9, false⟩ : LinearInequality).b -
      dotRow ⟨[(0, [1])], 1/2, 9, false⟩ [(0, [0])]) /
      dotRow ⟨[(0, [1])], 1/2, 9, false⟩ [(0, [1])] ≤ 1 := by
    norm_num [dotRow, dotQ]
  have h3 : ∀ k, (vvGet ([(0, [0])] : VectorValues) k).length =
      (vvGet ([(0, [1])] : VectorValues) k).length := by
    intro k
    by_cases h : (0 : Key) = k <;> simp [h]
  exact ⟨rfl, h1, h2,
    (computeStepSize_single_exact ⟨[(0, [1])], 1/2, 9, false⟩ [(0, [0])] [(0, [1])]
      rfl h1 h2 h3).2⟩

/-- C10: `computeStepSize` applies no lower clamp: an inactive constraint of
the working set that is violated at `xk` (`b < aᵀxk`) while `aᵀp > 0` forces
a strictly negative returned step length, so the step is in `[0, 1]` only
when `xk` satisfies all inactive inequality constraints. -/
theorem computeStepSize_neg_of_violated (ws : List LinearInequality)
    (xk p : VectorValues) (c : LinearInequality) (hc : c ∈ ws)
    (hact : c.active = false) (hviol : c.b < dotRow c xk)
    (hdir : 0 < dotRow c p) :
    (computeStepSize ws xk p).1 < 0 := by
  obtain ⟨i, hi, hget⟩ := List.mem_iff_getElem.mp hc
  have hget2 : ws.get ⟨i, hi⟩ = c := by simpa [List.get_eq_getElem] using hget
  have spec := (cssGo_spec xk p ws 0 1 (-1)).2.1 i hi
  rw [hget2] at spec
  have hle := spec hact hdir
  have hratio : (c.b - dotRow c xk) / dotRow c p < 0 :=
    div_neg_of_neg_of_pos (by linarith) hdir
  calc (computeStepSize ws xk p).1 ≤ (c.b - dotRow c xk) / dotRow c p := hle
    _ < 0 := hratio

/-- Witness for C10: constraint `x ≤ 0` violated at `x = 1` with direction
`p = 1` gives a negative step length. -/
theorem computeStepSize_neg_of_violated_witness :
    (⟨[(0, [1])], 0, 100, false⟩ : LinearInequality) ∈
        [(⟨[(0, [1])], 0, 100, false⟩ : LinearInequality)] ∧
      (⟨[(0, [1])], 0, 100, false⟩ : LinearInequality).active = false ∧
      (⟨[(0, [1])], 0, 100, false⟩ : LinearInequality).b <
        dotRow ⟨[(0, [1])], 0, 100, false⟩ [(0, [1])] ∧
      0 < dotRow ⟨[(0, [1])], 0, 100, false⟩ [(0, [1])] ∧
      (computeStepSize [⟨[(0, [1])], 0, 100, false⟩] [(0, [1])] [(0, [1])]).1 < 0 := by
  have h1 : (⟨[(0, [1])], 0, 100, false⟩ : LinearInequality).b <
      dotRow ⟨[(0, [1])], 0, 100, false⟩ [(0, [1])] := by
    norm_num [dotRow, dotQ]
  have h2 : 0 < dotRow (⟨[(0, [1])], 0, 100, false⟩ : LinearInequality) [(0, [1])] := by
    norm_num [dotRow, dotQ]
  exact ⟨List.mem_singleton.mpr rfl, rfl, h1, h2,
    computeStepSize_neg_of_violated [⟨[(0, [1])], 0, 100, false⟩] [(0, [1])] [(0, [1])]
      ⟨[(0, [1])], 0, 100, false⟩ (List.mem_singleton.mpr rfl) rfl h1 h2⟩

/-! ## Working-set initialization lemmas -/

@[simp] lemma exceptMapFn_ok {α β ε : Type} (f : α → β) (a : α) :
    (Except.ok a : Except ε α).map f = .ok (f a) := rfl

@[simp] lemma exceptMapFn_error {α β ε : Type} (f : α → β) (e : ε) :
    (Except.error e : Except ε α).map f = .error e := rfl

lemma identifyActiveConstraints_nil (init duals : VectorValues) (w : Bool) :
    identifyActiveConstraints [] init duals w = .ok [] := rfl

lemma identifyActiveConstraints_cons (a : LinearInequality)
    (l : List LinearInequality) (init duals : VectorValues) (w : Bool) :
    identifyActiveConstraints (a :: l) init duals w =
      match initWorkingFactor init duals w a with
      | .error e => .error e
      | .ok b =>
        match identifyActiveConstraints l init duals w with
        | .error e => .error e
        | .ok bs => .ok (b :: bs) := by
  unfold identifyActiveConstraints
  rw [List.mapM_cons]
  cases h : initWorkingFactor init duals w a with
  | error e => simp
  | ok b =>
      cases h2 : List.mapM (initWorkingFactor init duals w) l with
      | error e => simp [h2]
      | ok bs => simp [h2]

lemma initWorkingFactor_cold (init duals : VectorValues) (c : LinearInequality) :
    initWorkingFactor init duals false c =
      if 0 < ineqError c init then .error ⟨⟩
      else if |ineqError c init| < tol7 then .ok { c with active := true }
      else .ok { c with active := false } := by
  simp [initWorkingFactor, gt_iff_lt]

lemma identifyActiveConstraints_error_of_mem (init duals : VectorValues)
    (w : Bool) :
    ∀ (l : List LinearInequality) (c : LinearInequality), c ∈ l →
      initWorkingFactor init duals w c = .error ⟨⟩ →
      identifyActiveConstraints l init duals w = .error ⟨⟩
  | [], c, hc, _ => absurd hc (List.not_mem_nil c)
  | a :: l, c, hc, herr => by
      rw [identifyActiveConstraints_cons]
      rcases List.mem_cons.mp hc with rfl | hmem
      · rw [herr]
      · cases h : initWorkingFactor init duals w a with
        | error e => cases e; rfl
        | ok b =>
            rw [identifyActiveConstraints_error_of_mem init duals w l c hmem herr]

/-- C2: with warm start not in effect, a strictly positive violation of some
inequality constraint at the initial point makes `identifyActiveConstraints`
raise `InfeasibleInitialValues`, so `optimize` propagates the failure before
any iteration runs; no feasibility restoration is attempted. -/
theorem optimize_infeasible_initial (O : Oracles) (qp : QP) (fuel : Nat)
    (init duals : VectorValues) (c : LinearInequality)
    (hc : c ∈ qp.inequalities) (hpos : 0 < ineqError c init) :
    identifyActiveConstraints qp.inequalities init duals false = .error ⟨⟩ ∧
    optimize O qp fuel init duals false = .error ⟨⟩ := by
  have herr : initWorkingFactor init duals false c = .error ⟨⟩ := by
    rw [initWorkingFactor_cold, if_pos hpos]
  have hiac := identifyActiveConstraints_error_of_mem init duals false
    qp.inequalities c hc herr
  exact ⟨hiac, by rw [optimize, hiac]; rfl⟩

/-- Witness for C2: the inequality `x ≤ 0` with initial point `x = 1` (the
spec's infeasible-start scenario). -/
theorem optimize_infeasible_initial_witness :
    (⟨[(0, [1])], 0, 100, false⟩ : LinearInequality) ∈
        [(⟨[(0, [1])], 0, 100, false⟩ : LinearInequality)] ∧
      0 < ineqError ⟨[(0, [1])], 0, 100, false⟩ [(0, [1])] ∧
      identifyActiveConstraints [⟨[(0, [1])], 0, 100, false⟩] [(0, [1])] [] false =
        .error ⟨⟩ ∧
      optimize ⟨fun _ => [], fun _ => [], fun _ _ _ => []⟩
        ⟨[], [], [⟨[(0, [1])], 0, 100, false⟩]⟩ 1 [(0, [1])] [] false = .error ⟨⟩ := by
  have hpos : 0 < ineqError (⟨[(0, [1])], 0, 100, false⟩ : LinearInequality)
      [(0, [1])] := by
    norm_num [ineqError, dotRow, dotQ]
  have h := optimize_infeasible_initial ⟨fun _ => [], fun _ => [], fun _ _ _ => []⟩
    ⟨[], [], [⟨[(0, [1])], 0, 100, false⟩]⟩ 1 [(0, [1])] []
    ⟨[(0, [1])], 0, 100, false⟩ (List.mem_singleton.mpr rfl) hpos
  exact ⟨List.mem_singleton.mpr rfl, hpos, h.1, h.2⟩

/-- C7: whenever cold-start working-set construction returns (rather than
raising), a constraint whose violation `v` at the initial point satisfies
`|v| < 1e-7` is marked active, and one whose violation is strictly negative
beyond that tolerance (`v ≤ -1e-7`) is marked inactive; indexing is
preserved. -/
theorem identifyActiveConstraints_cold_flags :
    ∀ (ineqs : List LinearInequality) (init duals : VectorValues)
      (ws : List LinearInequality),
      identifyActiveConstraints ineqs init duals false = .ok ws →
      ws.length = ineqs.length ∧
      ∀ i, i < ineqs.length →
        (|ineqError (ineqs.getD i default) init| < tol7 →
          (ws.getD i default).active = true) ∧
        (ineqError (ineqs.getD i default) init ≤ -tol7 →
          (ws.getD i default).active = false)
  | [], init, duals, ws, h => by
      rw [identifyActiveConstraints_nil] at h
      cases h
      exact ⟨rfl, fun i hi => absurd hi (by simp)⟩
  | a :: l, init, duals, ws, h => by
      rw [identifyActiveConstraints_cons] at h
      cases hb : initWorkingFactor init duals false a with
      | error e => rw [hb] at h; cases h
      | ok b =>
          rw [hb] at h
          cases hbs : identifyActiveConstraints l init duals false with
          | error e => rw [hbs] at h; cases h
          | ok bs =>
              rw [hbs] at h
              cases h
              obtain ⟨ih1, ih2⟩ :=
                identifyActiveConstraints_cold_flags l init duals bs hbs
              refine ⟨by simpa using ih1, ?_⟩
              intro i hi
              match i with
              | 0 =>
                  rw [initWorkingFactor_cold] at hb
                  simp only [List.getD_cons_zero]
                  constructor
                  · intro habs
                    by_cases hpos : 0 < ineqError a init
                    · rw [if_pos hpos] at hb; cases hb
                    · rw [if_neg hpos, if_pos (by simpa using habs)] at hb
                      cases hb
                      rfl
                  · intro hneg
                    have habs : ¬ |ineqError a init| < tol7 := by
                      have h1 : (0 : ℚ) < tol7 := by norm_num [tol7]
                      rw [abs_lt]
                      push_neg
                      intro h2
                      linarith
                    by_cases hpos : 0 < ineqError a init
                    · rw [if_pos hpos] at hb; cases hb
                    · rw [if_neg hpos, if_neg (by simpa using habs)] at hb
                      cases hb
                      rfl
              | Nat.succ j => exact ih2 j (by simpa using hi)

/-- Witness for C7: constraint `x ≤ 0` at initial point `x = 0` (violation 0,
within tolerance) is marked active by a successful cold start. -/
theorem identifyActiveConstraints_cold_flags_witness :
    identifyActiveConstraints [⟨[(0, [1])], 0, 100, false⟩] [(0, [0])] [] false =
        .ok [⟨[(0, [1])], 0, 100, true⟩] ∧
      |ineqError (⟨[(0, [1])], 0, 100, false⟩ : LinearInequality) [(0, [0])]| < tol7 ∧
      (([⟨[(0, [1])], 0, 100, true⟩] :
          List LinearInequality).getD 0 default).active = true := by
  have hok : identifyActiveConstraints [⟨[(0, [1])], 0, 100, false⟩]
      [(0, [0])] [] false = .ok [⟨[(0, [1])], 0, 100, true⟩] := by
    rw [identifyActiveConstraints_cons, initWorkingFactor_cold]
    norm_num [ineqError, dotRow, dotQ, tol7, identifyActiveConstraints_nil]
  have hsmall : |ineqError (⟨[(0, [1])], 0, 100, false⟩ : LinearInequality)
      [(0, [0])]| < tol7 := by
    norm_num [ineqError, dotRow, dotQ, tol7]
  have h := (identifyActiveConstraints_cold_flags [⟨[(0, [1])], 0, 100, false⟩]
    [(0, [0])] [] [⟨[(0, [1])], 0, 100, true⟩] hok).2 0 (by norm_num)
  exact ⟨hok, hsmall, h.1 (by simpa using hsmall)⟩

/-- Auxiliary for C9: with an empty duals container each working factor is
initialized exactly as in a cold start. -/
lemma initWF_empty_duals (init : VectorValues) (c : LinearInequality) :
    initWorkingFactor init [] true c = initWorkingFactor init [] false c := by
  simp [initWorkingFactor, vvExists, vvSize, List.lookup]

/-- C9: requesting warm start with an empty duals container behaves exactly
as a cold start — every violation is evaluated — and in particular
`InfeasibleInitialValues` can still be raised (shown at the infeasible
instance `x ≤ 0`, `x = 1`). -/
theorem warmStart_emptyDuals_cold :
    (∀ (ineqs : List LinearInequality) (init : VectorValues),
      identifyActiveConstraints ineqs init [] true =
        identifyActiveConstraints ineqs init [] false) ∧
    identifyActiveConstraints [⟨[(0, [1])], 0, 100, false⟩] [(0, [1])] [] true =
      .error ⟨⟩ := by
  have hfun : ∀ init : VectorValues,
      initWorkingFactor init ([] : VectorValues) true =
        initWorkingFactor init [] false :=
    fun init => funext (initWF_empty_duals init)
  refine ⟨?_, ?_⟩
  · intro ineqs init
    unfold identifyActiveConstraints
    rw [hfun]
  · rw [identifyActiveConstraints_cons, initWF_empty_duals, initWorkingFactor_cold]
    norm_num [ineqError, dotRow, dotQ]

/-! ## The no-progress branch of `iterate` (C6) -/

/-- C6 (counterexample): a no-progress step with a leaving constraint returns
the newly solved values, not the previous ones.  Constraint `x ≤ 0` (key 0)
is active, the solve moves only the free variable `y` (key 1) by `5e-8`
(within the `1e-7` zero-progress tolerance), and the dual solve reports a
positive multiplier, so the constraint leaves — but the returned `values`
differ from the input values at `y`. -/
theorem iterate_noprogress_leaving_cex :
    vvEquals tol7
        (solveWCWS ⟨fun _ => [(0, [0]), (1, [1/20000000])], fun _ => [(100, [1])],
          fun _ _ _ => []⟩ [⟨[(0, [1])], 0, 100, true⟩])
        [(0, [0]), (1, [0])] = true ∧
      identifyLeavingConstraint [⟨[(0, [1])], 0, 100, true⟩]
        ((⟨fun _ => [(0, [0]), (1, [1/20000000])], fun _ => [(100, [1])],
          fun _ _ _ => []⟩ : Oracles).dualSolve
          (buildDualGraph ⟨fun _ => [(0, [0]), (1, [1/20000000])], fun _ => [(100, [1])],
            fun _ _ _ => []⟩ ⟨[], [], [⟨[(0, [1])], 0, 100, true⟩]⟩
            [⟨[(0, [1])], 0, 100, true⟩]
            (solveWCWS ⟨fun _ => [(0, [0]), (1, [1/20000000])], fun _ => [(100, [1])],
              fun _ _ _ => []⟩ [⟨[(0, [1])], 0, 100, true⟩]))) = ((0 : Nat) : Int) ∧
      (iterate ⟨fun _ => [(0, [0]), (1, [1/20000000])], fun _ => [(100, [1])],
          fun _ _ _ => []⟩ ⟨[], [], [⟨[(0, [1])], 0, 100, true⟩]⟩
          ⟨[(0, [0]), (1, [0])], [], [⟨[(0, [1])], 0, 100, true⟩], false, 0⟩).values ≠
        [(0, [0]), (1, [0])] := by
  refine ⟨?_, ?_, ?_⟩
  · norm_num [solveWCWS, vvEquals, listApproxEq, tol7, abs_le]
  · norm_num [identifyLeavingConstraint, ilcGo, lambdaAt, solveWCWS]
  · have : (iterate ⟨fun _ => [(0, [0]), (1, [1/20000000])], fun _ => [(100, [1])],
        fun _ _ _ => []⟩ ⟨[], [], [⟨[(0, [1])], 0, 100, true⟩]⟩
        ⟨[(0, [0]), (1, [0])], [], [⟨[(0, [1])], 0, 100, true⟩], false, 0⟩).values =
        [(0, [0]), (1, [1/20000000])] := by
      norm_num [iterate, solveWCWS, vvEquals, listApproxEq, tol7,
        identifyLeavingConstraint, ilcGo, lambdaAt, inactivateAt, abs_le]
    rw [this]
    norm_num

/-- C6 (amended): on a no-progress step (the solved point equals the previous
point within `1e-7`) with a leaving constraint at index `j`, `iterate` returns
converged = false, the working set with exactly constraint `j` deactivated,
the *newly solved* values (equal to the previous values within the tolerance,
though not necessarily identical to them), the newly computed duals, and the
iteration count incremented by one. -/
theorem iterate_noprogress_leaving (O : Oracles) (qp : QP) (s : QPState) (j : Nat)
    (hnp : vvEquals tol7 (solveWCWS O s.workingSet) s.values = true)
    (hlv : identifyLeavingConstraint s.workingSet
        (O.dualSolve (buildDualGraph O qp s.workingSet
          (solveWCWS O s.workingSet))) = (j : Int)) :
    iterate O qp s =
      ⟨solveWCWS O s.workingSet,
        O.dualSolve (buildDualGraph O qp s.workingSet (solveWCWS O s.workingSet)),
        inactivateAt s.workingSet j, false, s.iterations + 1⟩ ∧
    vvEquals tol7 (iterate O qp s).values s.values = true := by
  have hres : iterate O qp s =
      ⟨solveWCWS O s.workingSet,
        O.dualSolve (buildDualGraph O qp s.workingSet (solveWCWS O s.workingSet)),
        inactivateAt s.workingSet j, false, s.iterations + 1⟩ := by
    rw [iterate, if_pos hnp]
    simp only [hlv]
    rw [if_neg (by omega : ¬ ((j : Int) < 0))]
    simp
  exact ⟨hres, by rw [hres]; exact hnp⟩

/-- Witness for C6 (amended) at the instance of the counterexample: the
hypotheses hold there and the returned state has the promised shape. -/
theorem iterate_noprogress_leaving_witness :
    iterate ⟨fun _ => [(0, [0]), (1, [1/20000000])], fun _ => [(100, [1])],
        fun _ _ _ => []⟩ ⟨[], [], [⟨[(0, [1])], 0, 100, true⟩]⟩
        ⟨[(0, [0]), (1, [0])], [], [⟨[(0, [1])], 0, 100, true⟩], false, 0⟩ =
      ⟨solveWCWS ⟨fun _ => [(0, [0]), (1, [1/20000000])], fun _ => [(100, [1])],
          fun _ _ _ => []⟩ [⟨[(0, [1])], 0, 100, true⟩],
        (⟨fun _ => [(0, [0]), (1, [1/20000000])], fun _ => [(100, [1])],
          fun _ _ _ => []⟩ : Oracles).dualSolve
          (buildDualGraph ⟨fun _ => [(0, [0]), (1, [1/20000000])], fun _ => [(100, [1])],
            fun _ _ _ => []⟩ ⟨[], [], [⟨[(0, [1])], 0, 100, true⟩]⟩
            [⟨[(0, [1])], 0, 100, true⟩]
            (solveWCWS ⟨fun _ => [(0, [0]), (1, [1/20000000])], fun _ => [(100, [1])],
              fun _ _ _ => []⟩ [⟨[(0, [1])], 0, 100, true⟩])),
        inactivateAt [⟨[(0, [1])], 0, 100, true⟩] 0, false, 0 + 1⟩ := by
  have h1 : vvEquals tol7
      (solveWCWS ⟨fun _ => [(0, [0]), (1, [1/20000000])], fun _ => [(100, [1])],
        fun _ _ _ => []⟩ [⟨[(0, [1])], 0, 100, true⟩])
      [(0, [0]), (1, [0])] = true := by
    norm_num [solveWCWS, vvEquals, listApproxEq, tol7, abs_le]
  have h2 : identifyLeavingConstraint [⟨[(0, [1])], 0, 100, true⟩]
      ((⟨fun _ => [(0, [0]), (1, [1/20000000])], fun _ => [(100, [1])],
        fun _ _ _ => []⟩ : Oracles).dualSolve
        (buildDualGraph ⟨fun _ => [(0, [0]), (1, [1/20000000])], fun _ => [(100, [1])],
          fun _ _ _ => []⟩ ⟨[], [], [⟨[(0, [1])], 0, 100, true⟩]⟩
          [⟨[(0, [1])], 0, 100, true⟩]
          (solveWCWS ⟨fun _ => [(0, [0]), (1, [1/20000000])], fun _ => [(100, [1])],
            fun _ _ _ => []⟩ [⟨[(0, [1])], 0, 100, true⟩]))) = ((0 : Nat) : Int) := by
    norm_num [identifyLeavingConstraint, ilcGo, lambdaAt, solveWCWS]
  exact (iterate_noprogress_leaving _ _ _ 0 h1 h2).1

/-! ## Branch lemmas for `iterate` and working-set mutation helpers -/

lemma iterate_progress_eq (O : Oracles) (qp : QP) (s : QPState)
    (hne : vvEquals tol7 (solveWCWS O s.workingSet) s.values = false) :
    iterate O qp s =
      ⟨vvAxpy s.values
          (computeStepSize s.workingSet s.values
            (vvSub (solveWCWS O s.workingSet) s.values)).1
          (vvSub (solveWCWS O s.workingSet) s.values),
        s.duals,
        if (computeStepSize s.workingSet s.values
              (vvSub (solveWCWS O s.workingSet) s.values)).2 ≥ 0 then
          activateAt s.workingSet
            (computeStepSize s.workingSet s.values
              (vvSub (solveWCWS O s.workingSet) s.values)).2.toNat
        else s.workingSet,
        false, s.iterations + 1⟩ := by
  rw [iterate, if_neg (by simp [hne])]

lemma iterate_noprogress_eq (O : Oracles) (qp : QP) (s : QPState)
    (hnp : vvEquals tol7 (solveWCWS O s.workingSet) s.values = true) :
    iterate O qp s =
      (if identifyLeavingConstraint s.workingSet
            (O.dualSolve (buildDualGraph O qp s.workingSet
              (solveWCWS O s.workingSet))) < 0 then
        ⟨solveWCWS O s.workingSet,
          O.dualSolve (buildDualGraph O qp s.workingSet (solveWCWS O s.workingSet)),
          s.workingSet, true, s.iterations + 1⟩
      else
        ⟨solveWCWS O s.workingSet,
          O.dualSolve (buildDualGraph O qp s.workingSet (solveWCWS O s.workingSet)),
          inactivateAt s.workingSet
            (identifyLeavingConstraint s.workingSet
              (O.dualSolve (buildDualGraph O qp s.workingSet
                (solveWCWS O s.workingSet)))).toNat,
          false, s.iterations + 1⟩) := by
  rw [iterate, if_pos hnp]

@[simp] lemma dotRow_setActive (c : LinearInequality) (bfl : Bool) (v : VectorValues) :
    dotRow { c with active := bfl } v = dotRow c v := rfl

@[simp] lemma b_setActive (c : LinearInequality) (bfl : Bool) :
    ({ c with active := bfl } : LinearInequality).b = c.b := rfl

@[simp] lemma l1norm_setActive (c : LinearInequality) (bfl : Bool) :
    l1norm { c with active := bfl } = l1norm c := rfl

lemma mem_inactivateAt_cases {ws : List LinearInequality} {j : Nat}
    {c : LinearInequality} (hc : c ∈ inactivateAt ws j) :
    c ∈ ws ∨ ∃ h : j < ws.length, c = { ws.get ⟨j, h⟩ with active := false } := by
  by_cases hj : j < ws.length
  · rcases List.mem_or_eq_of_mem_set hc with h | h
    · exact Or.inl h
    · exact Or.inr ⟨hj, by rw [h, getD_get ws j hj]⟩
  · rw [inactivateAt, List.set_eq_of_length_le (by omega)] at hc
    exact Or.inl hc

lemma mem_activateAt_cases {ws : List LinearInequality} {j : Nat}
    {c : LinearInequality} (hc : c ∈ activateAt ws j) :
    c ∈ ws ∨ ∃ h : j < ws.length, c = { ws.get ⟨j, h⟩ with active := true } := by
  by_cases hj : j < ws.length
  · rcases List.mem_or_eq_of_mem_set hc with h | h
    · exact Or.inl h
    · exact Or.inr ⟨hj, by rw [h, getD_get ws j hj]⟩
  · rw [activateAt, List.set_eq_of_length_le (by omega)] at hc
    exact Or.inl hc

/-! ## Feasibility preservation (C1) -/

lemma progress_branch_feasible (ws : List LinearInequality) (x nv p : VectorValues)
    (r : ℚ × Int) (hp : p = vvSub nv x) (hr : r = computeStepSize ws x p)
    (hshape : sameShape nv x) (hexact : activeExactOn ws nv)
    (hact : activeExactOn ws x) (hfeas : inactiveFeasOn ws x) :
    activeExactOn (if r.2 ≥ 0 then activateAt ws r.2.toNat else ws) (vvAxpy x r.1 p) ∧
    inactiveFeasOn (if r.2 ≥ 0 then activateAt ws r.2.toNat else ws) (vvAxpy x r.1 p) := by
  have hlen : ∀ k, (vvGet nv k).length = (vvGet x k).length :=
    fun k => sameShape_vvGet_len hshape k
  have hdp : ∀ c : LinearInequality, dotRow c p = dotRow c nv - dotRow c x := by
    intro c; rw [hp]; exact dotRow_vvSub c nv x hlen
  have hstep : ∀ c : LinearInequality,
      dotRow c (vvAxpy x r.1 p) = dotRow c x + r.1 * dotRow c p := by
    intro c
    rw [hp, dotRow_step c nv x r.1 hshape, ← hdp c, hp]
  have hr2 : r = cssGo x p ws 0 1 (-1) := hr
  obtain ⟨spec1, spec2, spec3⟩ := cssGo_spec x p ws 0 1 (-1)
  rw [← hr2] at spec1 spec2 spec3
  have hα0 : 0 ≤ r.1 := by
    rcases spec3 with ⟨hv, _⟩ | ⟨m, hm, _, hma, hmd, hval, _⟩
    · rw [hv]; norm_num
    · have hmem := List.get_mem ws m hm
      have hnum := hfeas _ hmem hma
      rw [hval]
      exact div_nonneg (by linarith) (le_of_lt hmd)
  have hinact : ∀ c ∈ ws, c.active = false → dotRow c (vvAxpy x r.1 p) ≤ c.b := by
    intro c hc hca
    by_cases hd : dotRow c p ≤ 0
    · have h1 := hfeas c hc hca
      have h2 : r.1 * dotRow c p ≤ 0 :=
        mul_nonpos_iff.mpr (Or.inl ⟨hα0, hd⟩)
      rw [hstep c]
      linarith
    · push_neg at hd
      obtain ⟨i, hi, hgeti⟩ := List.mem_iff_getElem.mp hc
      have hget : ws.get ⟨i, hi⟩ = c := by simpa [List.get_eq_getElem] using hgeti
      have hb := spec2 i hi (by rw [hget]; exact hca) (by rw [hget]; exact hd)
      rw [hget] at hb
      have hmul : r.1 * dotRow c p ≤ c.b - dotRow c x := by
        have := (le_div_iff hd).mp hb
        linarith
      rw [hstep c]
      linarith
  constructor
  · intro c hc hca
    by_cases hge : r.2 ≥ 0
    · rw [if_pos hge] at hc
      rcases mem_activateAt_cases hc with h | ⟨hj, hcv⟩
      · have h1 := hact c h hca
        have h2 := hexact c h hca
        rw [hstep c, hdp c, h1, h2]
        ring
      · rcases spec3 with ⟨_, hc2⟩ | ⟨m, hm, hres, hma, hmd, hval, _⟩
        · exfalso; rw [hc2] at hge; omega
        · have hj_eq : r.2.toNat = m := by rw [hres]; simp
          have hgeteq : ws.get ⟨r.2.toNat, hj⟩ = ws.get ⟨m, hm⟩ := by
            congr 1
            exact Fin.ext hj_eq
          rw [hcv, hgeteq]
          simp only [dotRow_setActive, b_setActive]
          rw [hstep, hval, div_mul_cancel₀ _ (ne_of_gt hmd)]
          ring
    · rw [if_neg hge] at hc
      have h1 := hact c hc hca
      have h2 := hexact c hc hca
      rw [hstep c, hdp c, h1, h2]
      ring
  · intro c hc hca
    by_cases hge : r.2 ≥ 0
    · rw [if_pos hge] at hc
      rcases mem_activateAt_cases hc with h | ⟨hj, hcv⟩
      · exact hinact c h hca
      · exfalso
        rw [hcv] at hca
        simp at hca
    · rw [if_neg hge] at hc
      exact hinact c hc hca

/-- C1 (amended): one step of `iterate`, from a state whose active constraints
hold exactly and whose inactive constraints hold non-strictly, and given the
black-box guarantee that the working-set solve satisfies the active
constraints exactly, produces a state in which (i) every active constraint of
the new working set holds exactly, (ii) every inactive constraint holds
within the slack `1e-7 · ‖a‖₁` inherited from the zero-progress tolerance,
and (iii) on a progress step every inactive constraint holds non-strictly
with no slack at all.  (The claim as frozen — exact active satisfaction and
feasibility at *every* reachable state — fails, because cold-start activation
tolerates `|error| < 1e-7` and a no-progress step replaces `values` by the
solved point; see the counterexample.) -/
theorem iterate_feasibility (O : Oracles) (qp : QP) (s : QPState)
    (hshape : sameShape (solveWCWS O s.workingSet) s.values)
    (hexact : activeExactOn s.workingSet (solveWCWS O s.workingSet))
    (hact : activeExactOn s.workingSet s.values)
    (hfeas : inactiveFeasOn s.workingSet s.values) :
    activeExactOn (iterate O qp s).workingSet (iterate O qp s).values ∧
    (∀ c ∈ (iterate O qp s).workingSet, c.active = false →
      dotRow c (iterate O qp s).values ≤ c.b + tol7 * l1norm c) ∧
    (vvEquals tol7 (solveWCWS O s.workingSet) s.values = false →
      inactiveFeasOn (iterate O qp s).workingSet (iterate O qp s).values) := by
  by_cases heq : vvEquals tol7 (solveWCWS O s.workingSet) s.values = true
  · rw [iterate_noprogress_eq O qp s heq]
    have hslack : ∀ c : LinearInequality,
        dotRow c (solveWCWS O s.workingSet) ≤ dotRow c s.values + tol7 * l1norm c := by
      intro c
      have h := abs_dotRow_sub_le (by norm_num [tol7]) c heq
      have h2 := (abs_le.mp h).2
      linarith
    have hγ : ∀ c : LinearInequality, (0 : ℚ) ≤ tol7 * l1norm c := by
      intro c
      exact mul_nonneg (by norm_num [tol7]) (l1norm_nonneg c)
    by_cases hlf : identifyLeavingConstraint s.workingSet
        (O.dualSolve (buildDualGraph O qp s.workingSet (solveWCWS O s.workingSet))) < 0
    · rw [if_pos hlf]
      refine ⟨fun c hc hca => hexact c hc hca, ?_, ?_⟩
      · intro c hc hca
        have h1 := hfeas c hc hca
        have h2 := hslack c
        linarith
      · intro hfalse
        rw [heq] at hfalse
        cases hfalse
    · rw [if_neg hlf]
      refine ⟨?_, ?_, ?_⟩
      · intro c hc hca
        rcases mem_inactivateAt_cases hc with h | ⟨hj, hcv⟩
        · exact hexact c h hca
        · exfalso
          rw [hcv] at hca
          simp at hca
      · intro c hc hca
        rcases mem_inactivateAt_cases hc with h | ⟨hj, hcv⟩
        · have h1 := hfeas c h hca
          have h2 := hslack c
          linarith
        · rw [hcv]
          simp only [dotRow_setActive, b_setActive, l1norm_setActive]
          by_cases hc0a : (s.workingSet.get ⟨_, hj⟩).active = true
          · have h1 := hexact _ (List.get_mem _ _ hj) hc0a
            rw [h1]
            exact le_add_of_nonneg_right (hγ _)
          · have hfa : (s.workingSet.get ⟨_, hj⟩).active = false := by
              revert hc0a
              cases (s.workingSet.get ⟨_, hj⟩).active <;> simp
            have h1 := hfeas _ (List.get_mem _ _ hj) hfa
            have h2 := hslack (s.workingSet.get ⟨_, hj⟩)
            linarith
      · intro hfalse
        rw [heq] at hfalse
        cases hfalse
  · have hne : vvEquals tol7 (solveWCWS O s.workingSet) s.values = false := by
      revert heq
      cases vvEquals tol7 (solveWCWS O s.workingSet) s.values <;> simp
    rw [iterate_progress_eq O qp s hne]
    obtain ⟨h1, h2⟩ := progress_branch_feasible s.workingSet s.values
      (solveWCWS O s.workingSet) (vvSub (solveWCWS O s.workingSet) s.values)
      (computeStepSize s.workingSet s.values
        (vvSub (solveWCWS O s.workingSet) s.values)) rfl rfl hshape hexact hact hfeas
    refine ⟨h1, ?_, fun _ => h2⟩
    intro c hc hca
    have := h2 c hc hca
    have h3 : (0 : ℚ) ≤ tol7 * l1norm c :=
      mul_nonneg (by norm_num [tol7]) (l1norm_nonneg c)
    linarith

/-- C1 (counterexample): from a feasible initial point the cold start may mark
a constraint active whose violation is only within the `1e-7` tolerance
(here `x ≤ 0` at `x = -5e-8`), and after one progress step of `iterate` with
step length `1/2` (blocked by the second constraint `y ≤ 1/2`), that still
active constraint is satisfied only approximately (`aᵀx = -2.5e-8 ≠ 0`,
beyond the `1e-9` tolerance of the claim) — so exact satisfaction of every
active constraint at every state does not hold.  The oracle solve satisfies
the active constraint exactly, as the black-box contract demands. -/
theorem iterate_feasibility_cex :
    identifyActiveConstraints
        [⟨[(0, [1])], 0, 100, false⟩, ⟨[(1, [1])], 1/2, 101, false⟩]
        [(0, [-1/20000000]), (1, [0])] [] false =
      .ok [⟨[(0, [1])], 0, 100, true⟩, ⟨[(1, [1])], 1/2, 101, false⟩] ∧
    (∀ c ∈ [(⟨[(0, [1])], 0, 100, false⟩ : LinearInequality),
        ⟨[(1, [1])], 1/2, 101, false⟩],
      ineqError c [(0, [-1/20000000]), (1, [0])] ≤ 0) ∧
    activeExactOn [⟨[(0, [1])], 0, 100, true⟩, ⟨[(1, [1])], 1/2, 101, false⟩]
      (solveWCWS ⟨fun _ => [(0, [0]), (1, [1])], fun _ => [], fun _ _ _ => []⟩
        [⟨[(0, [1])], 0, 100, true⟩, ⟨[(1, [1])], 1/2, 101, false⟩]) ∧
    iterate ⟨fun _ => [(0, [0]), (1, [1])], fun _ => [], fun _ _ _ => []⟩
        ⟨[], [], [⟨[(0, [1])], 0, 100, false⟩, ⟨[(1, [1])], 1/2, 101, false⟩]⟩
        ⟨[(0, [-1/20000000]), (1, [0])], [],
          [⟨[(0, [1])], 0, 100, true⟩, ⟨[(1, [1])], 1/2, 101, false⟩], false, 0⟩ =
      ⟨[(0, [-1/40000000]), (1, [1/2])], [],
        [⟨[(0, [1])], 0, 100, true⟩, ⟨[(1, [1])], 1/2, 101, true⟩], false, 1⟩ ∧
    dotRow (⟨[(0, [1])], 0, 100, true⟩ : LinearInequality)
        [(0, [-1/40000000]), (1, [1/2])] ≠
      (⟨[(0, [1])], 0, 100, true⟩ : LinearInequality).b ∧
    ¬ |dotRow (⟨[(0, [1])], 0, 100, true⟩ : LinearInequality)
        [(0, [-1/40000000]), (1, [1/2])] -
        (⟨[(0, [1])], 0, 100, true⟩ : LinearInequality).b| ≤ 1/1000000000 := by
  refine ⟨?_, ?_, ?_, ?_, ?_, ?_⟩
  · rw [identifyActiveConstraints_cons, initWorkingFactor_cold]
    rw [identifyActiveConstraints_cons, initWorkingFactor_cold]
    norm_num [ineqError, dotRow, dotQ, tol7, identifyActiveConstraints_nil, abs_lt]
  · intro c hc
    rcases List.mem_cons.mp hc with rfl | hc2
    · norm_num [ineqError, dotRow, dotQ]
    · rcases List.mem_cons.mp hc2 with rfl | hc3
      · norm_num [ineqError, dotRow, dotQ]
      · exact absurd hc3 (List.not_mem_nil c)
  · intro c hc hca
    rcases List.mem_cons.mp hc with rfl | hc2
    · norm_num [solveWCWS, dotRow, dotQ]
    · rcases List.mem_cons.mp hc2 with rfl | hc3
      · cases hca
      · exact absurd hc3 (List.not_mem_nil c)
  · norm_num [iterate, solveWCWS, vvEquals, listApproxEq, tol7, abs_le,
      computeStepSize, cssGo, dotRow, dotQ, vvSub, vvAxpy, activateAt]
  · norm_num [dotRow, dotQ]
  · norm_num [dotRow, dotQ, abs_le]

/-- Witness for C1 (amended): a state with a single active constraint
`x ≤ 0` held exactly at `x = 0`, with a solve oracle that returns the same
point; all hypotheses hold and the feasibility conclusions follow. -/
theorem iterate_feasibility_witness :
    sameShape
        (solveWCWS ⟨fun _ => [(0, [0])], fun _ => [], fun _ _ _ => []⟩
          [⟨[(0, [1])], 0, 100, true⟩]) [(0, [0])] ∧
      activeExactOn [⟨[(0, [1])], 0, 100, true⟩]
        (solveWCWS ⟨fun _ => [(0, [0])], fun _ => [], fun _ _ _ => []⟩
          [⟨[(0, [1])], 0, 100, true⟩]) ∧
      activeExactOn [⟨[(0, [1])], 0, 100, true⟩] [(0, [0])] ∧
      inactiveFeasOn [⟨[(0, [1])], 0, 100, true⟩] [(0, [0])] ∧
      (activeExactOn
          (iterate ⟨fun _ => [(0, [0])], fun _ => [], fun _ _ _ => []⟩
            ⟨[], [], [⟨[(0, [1])], 0, 100, true⟩]⟩
            ⟨[(0, [0])], [], [⟨[(0, [1])], 0, 100, true⟩], false, 0⟩).workingSet
          (iterate ⟨fun _ => [(0, [0])], fun _ => [], fun _ _ _ => []⟩
            ⟨[], [], [⟨[(0, [1])], 0, 100, true⟩]⟩
            ⟨[(0, [0])], [], [⟨[(0, [1])], 0, 100, true⟩], false, 0⟩).values ∧
        (∀ c ∈ (iterate ⟨fun _ => [(0, [0])], fun _ => [], fun _ _ _ => []⟩
            ⟨[], [], [⟨[(0, [1])], 0, 100, true⟩]⟩
            ⟨[(0, [0])], [], [⟨[(0, [1])], 0, 100, true⟩], false, 0⟩).workingSet,
          c.active = false →
          dotRow c (iterate ⟨fun _ => [(0, [0])], fun _ => [], fun _ _ _ => []⟩
            ⟨[], [], [⟨[(0, [1])], 0, 100, true⟩]⟩
            ⟨[(0, [0])], [], [⟨[(0, [1])], 0, 100, true⟩], false, 0⟩).values ≤
            c.b + tol7 * l1norm c) ∧
        (vvEquals tol7
            (solveWCWS ⟨fun _ => [(0, [0])], fun _ => [], fun _ _ _ => []⟩
              [⟨[(0, [1])], 0, 100, true⟩]) [(0, [0])] = false →
          inactiveFeasOn
            (iterate ⟨fun _ => [(0, [0])], fun _ => [], fun _ _ _ => []⟩
              ⟨[], [], [⟨[(0, [1])], 0, 100, true⟩]⟩
              ⟨[(0, [0])], [], [⟨[(0, [1])], 0, 100, true⟩], false, 0⟩).workingSet
            (iterate ⟨fun _ => [(0, [0])], fun _ => [], fun _ _ _ => []⟩
              ⟨[], [], [⟨[(0, [1])], 0, 100, true⟩]⟩
              ⟨[(0, [0])], [], [⟨[(0, [1])], 0, 100, true⟩], false, 0⟩).values)) := by
  have h1 : sameShape
      (solveWCWS ⟨fun _ => [(0, [0])], fun _ => [], fun _ _ _ => []⟩
        [⟨[(0, [1])], 0, 100, true⟩]) [(0, [0])] := by
    norm_num [solveWCWS, sameShape]
  have h2 : activeExactOn [⟨[(0, [1])], 0, 100, true⟩]
      (solveWCWS ⟨fun _ => [(0, [0])], fun _ => [], fun _ _ _ => []⟩
        [⟨[(0, [1])], 0, 100, true⟩]) := by
    intro c hc hca
    rcases List.mem_cons.mp hc with rfl | hc2
    · norm_num [solveWCWS, dotRow, dotQ]
    · exact absurd hc2 (List.not_mem_nil c)
  have h3 : activeExactOn [⟨[(0, [1])], 0, 100, true⟩] [(0, [0])] := by
    intro c hc hca
    rcases List.mem_cons.mp hc with rfl | hc2
    · norm_num [dotRow, dotQ]
    · exact absurd hc2 (List.not_mem_nil c)
  have h4 : inactiveFeasOn [⟨[(0, [1])], 0, 100, true⟩] [(0, [0])] := by
    intro c hc hca
    rcases List.mem_cons.mp hc with rfl | hc2
    · cases hca
    · exact absurd hc2 (List.not_mem_nil c)
  exact ⟨h1, h2, h3, h4,
    iterate_feasibility ⟨fun _ => [(0, [0])], fun _ => [], fun _ _ _ => []⟩
      ⟨[], [], [⟨[(0, [1])], 0, 100, true⟩]⟩
      ⟨[(0, [0])], [], [⟨[(0, [1])], 0, 100, true⟩], false, 0⟩ h1 h2 h3 h4⟩

/-! ## Sharing of activation flags between input and output states (C8) -/

lemma applyStore_active :
    ∀ (ws : List LinearInequality) (st : FlagStore), st.length = ws.length →
      (applyStore ws st).map (fun c => c.active) = st
  | [], [], _ => rfl
  | [], b :: st, h => by simp at h
  | c :: ws, [], h => by simp at h
  | c :: ws, b :: st, h => by
      rw [show applyStore (c :: ws) (b :: st) =
        ({ c with active := b }) :: applyStore ws st from rfl]
      simp only [List.map_cons]
      rw [applyStore_active ws st (by simpa using h)]

lemma map_active_inactivateAt (l : List LinearInequality) (j : Nat) :
    (inactivateAt l j).map (fun c => c.active) =
      (l.map (fun c => c.active)).set j false := by
  by_cases hj : j < l.length
  · rw [inactivateAt, List.map_set]
  · rw [inactivateAt, List.set_eq_of_length_le (by omega),
      List.set_eq_of_length_le (by simp; omega)]

lemma map_active_activateAt (l : List LinearInequality) (j : Nat) :
    (activateAt l j).map (fun c => c.active) =
      (l.map (fun c => c.active)).set j true := by
  by_cases hj : j < l.length
  · rw [activateAt, List.map_set]
  · rw [activateAt, List.set_eq_of_length_le (by omega),
      List.set_eq_of_length_le (by simp; omega)]

/-- C8 (amended): the heap-level `iterateH` refines the value-level `iterate`
— the returned state is the pure function of the input state read through the
store (so results are deterministic and replay is possible *given the
store*), but the store after the call holds the *output* working set's flags:
whenever a constraint is activated or deactivated, the factor objects shared
with the input state's working set are mutated in place, so the input state
does not observe its original flags after the call. -/
theorem iterateH_refines (O : Oracles) (qp : QP) (v d : VectorValues) (n : Nat)
    (ws : List LinearInequality) (st : FlagStore) (hlen : st.length = ws.length) :
    (iterateH O qp v d n ws st).1 =
      iterate O qp ⟨v, d, applyStore ws st, false, n⟩ ∧
    (iterateH O qp v d n ws st).2 =
      ((iterate O qp ⟨v, d, applyStore ws st, false, n⟩).workingSet).map
        (fun c => c.active) := by
  have hca : (applyStore ws st).map (fun c => c.active) = st :=
    applyStore_active ws st hlen
  by_cases heq : vvEquals tol7 (solveWCWS O (applyStore ws st)) v = true
  · have hiter := iterate_noprogress_eq O qp ⟨v, d, applyStore ws st, false, n⟩ heq
    dsimp only at hiter
    by_cases hlf : identifyLeavingConstraint (applyStore ws st)
        (O.dualSolve (buildDualGraph O qp (applyStore ws st)
          (solveWCWS O (applyStore ws st)))) < 0
    · rw [hiter, if_pos hlf]
      constructor
      · rw [iterateH, if_pos heq, if_pos hlf]
      · rw [iterateH, if_pos heq, if_pos hlf]
        exact hca.symm
    · rw [hiter, if_neg hlf]
      constructor
      · rw [iterateH, if_pos heq, if_neg hlf]
      · rw [iterateH, if_pos heq, if_neg hlf]
        rw [map_active_inactivateAt, hca]
  · have hne : vvEquals tol7 (solveWCWS O (applyStore ws st)) v = false := by
      revert heq
      cases vvEquals tol7 (solveWCWS O (applyStore ws st)) v <;> simp
    have hiter := iterate_progress_eq O qp ⟨v, d, applyStore ws st, false, n⟩ hne
    dsimp only at hiter
    rw [hiter]
    by_cases hge : (computeStepSize (applyStore ws st) v
        (vvSub (solveWCWS O (applyStore ws st)) v)).2 ≥ 0
    · rw [if_pos hge]
      constructor
      · rw [iterateH, if_neg (by simp [hne])]
        dsimp only
        rw [if_pos hge]
      · rw [iterateH, if_neg (by simp [hne])]
        dsimp only
        rw [if_pos hge, map_active_activateAt, hca]
    · rw [if_neg hge]
      constructor
      · rw [iterateH, if_neg (by simp [hne])]
        dsimp only
        rw [if_neg hge]
      · rw [iterateH, if_neg (by simp [hne])]
        dsimp only
        rw [if_neg hge]
        exact hca.symm

/-- Witness for C8 (amended) at a one-constraint instance. -/
theorem iterateH_refines_witness :
    ([true] : FlagStore).length = [(⟨[(0, [1])], 0, 100, true⟩ :
        LinearInequality)].length ∧
      (iterateH ⟨fun l => if l.isEmpty then [(0, [-1])] else [(0, [0])],
          fun _ => [(100, [1])], fun _ _ _ => []⟩ ⟨[], [], [⟨[(0, [1])], 0, 100, true⟩]⟩
          [(0, [0])] [] 0 [⟨[(0, [1])], 0, 100, true⟩] [true]).1 =
        iterate ⟨fun l => if l.isEmpty then [(0, [-1])] else [(0, [0])],
          fun _ => [(100, [1])], fun _ _ _ => []⟩ ⟨[], [], [⟨[(0, [1])], 0, 100, true⟩]⟩
          ⟨[(0, [0])], [], applyStore [⟨[(0, [1])], 0, 100, true⟩] [true], false, 0⟩ ∧
      (iterateH ⟨fun l => if l.isEmpty then [(0, [-1])] else [(0, [0])],
          fun _ => [(100, [1])], fun _ _ _ => []⟩ ⟨[], [], [⟨[(0, [1])], 0, 100, true⟩]⟩
          [(0, [0])] [] 0 [⟨[(0, [1])], 0, 100, true⟩] [true]).2 =
        ((iterate ⟨fun l => if l.isEmpty then [(0, [-1])] else [(0, [0])],
          fun _ => [(100, [1])], fun _ _ _ => []⟩ ⟨[], [], [⟨[(0, [1])], 0, 100, true⟩]⟩
          ⟨[(0, [0])], [], applyStore [⟨[(0, [1])], 0, 100, true⟩] [true],
            false, 0⟩).workingSet).map (fun c => c.active) := by
  have h := iterateH_refines
    ⟨fun l => if l.isEmpty then [(0, [-1])] else [(0, [0])],
      fun _ => [(100, [1])], fun _ _ _ => []⟩ ⟨[], [], [⟨[(0, [1])], 0, 100, true⟩]⟩
    [(0, [0])] [] 0 [⟨[(0, [1])], 0, 100, true⟩] [true] rfl
  exact ⟨rfl, h.1, h.2⟩

/-- C8 (counterexample): `iterate` does not leave its input state unchanged —
it mutates the activation flags shared with the input working set.  At a
state whose single constraint `x ≤ 0` is active and leaves (positive
multiplier), the shared flag store changes from `[true]` to `[false]`, and
replaying the call on the same input state (same pointers, the store as the
first call left it) yields a different result state. -/
theorem iterateH_mutates_cex :
    (iterateH ⟨fun l => if l.isEmpty then [(0, [-1])] else [(0, [0])],
        fun _ => [(100, [1])], fun _ _ _ => []⟩ ⟨[], [], [⟨[(0, [1])], 0, 100, true⟩]⟩
        [(0, [0])] [] 0 [⟨[(0, [1])], 0, 100, true⟩] [true]).2 ≠ [true] ∧
      (iterateH ⟨fun l => if l.isEmpty then [(0, [-1])] else [(0, [0])],
        fun _ => [(100, [1])], fun _ _ _ => []⟩ ⟨[], [], [⟨[(0, [1])], 0, 100, true⟩]⟩
        [(0, [0])] [] 0 [⟨[(0, [1])], 0, 100, true⟩]
        (iterateH ⟨fun l => if l.isEmpty then [(0, [-1])] else [(0, [0])],
          fun _ => [(100, [1])], fun _ _ _ => []⟩ ⟨[], [], [⟨[(0, [1])], 0, 100, true⟩]⟩
          [(0, [0])] [] 0 [⟨[(0, [1])], 0, 100, true⟩] [true]).2).1 ≠
      (iterateH ⟨fun l => if l.isEmpty then [(0, [-1])] else [(0, [0])],
        fun _ => [(100, [1])], fun _ _ _ => []⟩ ⟨[], [], [⟨[(0, [1])], 0, 100, true⟩]⟩
        [(0, [0])] [] 0 [⟨[(0, [1])], 0, 100, true⟩] [true]).1 := by
  have h1 : (iterateH ⟨fun l => if l.isEmpty then [(0, [-1])] else [(0, [0])],
      fun _ => [(100, [1])], fun _ _ _ => []⟩ ⟨[], [], [⟨[(0, [1])], 0, 100, true⟩]⟩
      [(0, [0])] [] 0 [⟨[(0, [1])], 0, 100, true⟩] [true]) =
      (⟨[(0, [0])], [(100, [1])], [⟨[(0, [1])], 0, 100, false⟩], false, 1⟩, [false]) := by
    norm_num [iterateH, applyStore, solveWCWS, vvEquals, listApproxEq, tol7,
      buildDualGraph, createDualFactor, constrainedKeys, collectDualJacobiansEq,
      collectDualJacobiansIneq, identifyLeavingConstraint, ilcGo, lambdaAt,
      inactivateAt, abs_le]
  have h2 : (iterateH ⟨fun l => if l.isEmpty then [(0, [-1])] else [(0, [0])],
      fun _ => [(100, [1])], fun _ _ _ => []⟩ ⟨[], [], [⟨[(0, [1])], 0, 100, true⟩]⟩
      [(0, [0])] [] 0 [⟨[(0, [1])], 0, 100, true⟩] [false]) =
      (⟨[(0, [-1])], [], [⟨[(0, [1])], 0, 100, false⟩], false, 1⟩, [false]) := by
    norm_num [iterateH, applyStore, solveWCWS, vvEquals, listApproxEq, tol7,
      computeStepSize, cssGo, dotRow, dotQ, vvSub, vvAxpy, abs_le]
  refine ⟨by rw [h1]; simp, ?_⟩
  rw [h1]
  simp only []
  rw [h2]
  intro hcontra
  have hv2 := congrArg QPState.values hcontra
  dsimp only at hv2
  norm_num at hv2

/-! ## Structural invariants of the working set across the solver (C3) -/

lemma strip_initWorkingFactor {init duals : VectorValues} {w : Bool}
    {f wf : LinearInequality} (h : initWorkingFactor init duals w f = .ok wf) :
    strip wf = strip f := by
  unfold initWorkingFactor at h
  split at h
  · cases h; rfl
  · split at h
    · cases h; rfl
    · dsimp only at h
      split at h
      · cases h
      · split at h
        · cases h; rfl
        · cases h; rfl

lemma strip_identifyActiveConstraints :
    ∀ {ineqs ws : List LinearInequality} {init duals : VectorValues} {w : Bool},
      identifyActiveConstraints ineqs init duals w = .ok ws →
      ws.map strip = ineqs.map strip := by
  intro ineqs
  induction ineqs with
  | nil =>
      intro ws init duals w h
      rw [identifyActiveConstraints_nil] at h
      cases h
      rfl
  | cons a l ih =>
      intro ws init duals w h
      rw [identifyActiveConstraints_cons] at h
      cases hb : initWorkingFactor init duals w a with
      | error e => rw [hb] at h; cases h
      | ok b =>
          rw [hb] at h
          cases hbs : identifyActiveConstraints l init duals w with
          | error e => rw [hbs] at h; cases h
          | ok bs =>
              rw [hbs] at h
              cases h
              simp only [List.map_cons]
              rw [strip_initWorkingFactor hb, ih hbs]

lemma map_strip_set :
    ∀ (ws : List LinearInequality) (j : Nat) (bfl : Bool),
      (ws.set j { ws.getD j default with active := bfl }).map strip = ws.map strip
  | [], _, _ => by simp
  | c :: ws, 0, bfl => by simp [strip]
  | c :: ws, j + 1, bfl => by
      simp only [List.set, List.map_cons, List.getD_cons_succ]
      rw [map_strip_set ws j bfl]

lemma strip_iterate (O : Oracles) (qp : QP) (s : QPState) :
    ((iterate O qp s).workingSet).map strip = s.workingSet.map strip := by
  by_cases heq : vvEquals tol7 (solveWCWS O s.workingSet) s.values = true
  · rw [iterate_noprogress_eq O qp s heq]
    by_cases hlf : identifyLeavingConstraint s.workingSet
        (O.dualSolve (buildDualGraph O qp s.workingSet (solveWCWS O s.workingSet))) < 0
    · rw [if_pos hlf]
    · rw [if_neg hlf]
      exact map_strip_set s.workingSet _ false
  · have hne : vvEquals tol7 (solveWCWS O s.workingSet) s.values = false := by
      revert heq
      cases vvEquals tol7 (solveWCWS O s.workingSet) s.values <;> simp
    rw [iterate_progress_eq O qp s hne]
    by_cases hge : (computeStepSize s.workingSet s.values
        (vvSub (solveWCWS O s.workingSet) s.values)).2 ≥ 0
    · rw [if_pos hge]
      exact map_strip_set s.workingSet _ true
    · rw [if_neg hge]

lemma runLoop_some_converged (O : Oracles) (qp : QP) :
    ∀ (n : Nat) (s s2 : QPState), runLoop O qp n s = some s2 → s2.converged = true
  | 0, s, s2, h => by
      by_cases hs : s.converged = true
      · rw [runLoop, if_pos hs] at h
        cases h
        exact hs
      · rw [runLoop, if_neg hs] at h
        cases h
  | n + 1, s, s2, h => by
      by_cases hs : s.converged = true
      · rw [runLoop, if_pos hs] at h
        cases h
        exact hs
      · rw [runLoop, if_neg hs] at h
        exact runLoop_some_converged O qp n _ s2 h

lemma runLoop_last (O : Oracles) (qp : QP) :
    ∀ (n : Nat) (s s2 : QPState), runLoop O qp n s = some s2 →
      s2 = s ∨ ∃ s1 : QPState, s2 = iterate O qp s1 ∧
        s1.workingSet.map strip = s.workingSet.map strip
  | 0, s, s2, h => by
      by_cases hs : s.converged = true
      · rw [runLoop, if_pos hs] at h
        cases h
        exact Or.inl rfl
      · rw [runLoop, if_neg hs] at h
        cases h
  | n + 1, s, s2, h => by
      by_cases hs : s.converged = true
      · rw [runLoop, if_pos hs] at h
        cases h
        exact Or.inl rfl
      · rw [runLoop, if_neg hs] at h
        rcases runLoop_last O qp n _ s2 h with h2 | ⟨s1, h2, h3⟩
        · exact Or.inr ⟨s, h2, rfl⟩
        · exact Or.inr ⟨s1, h2, by rw [h3, strip_iterate]⟩

lemma iterate_converged (O : Oracles) (qp : QP) (s1 s2 : QPState)
    (h : iterate O qp s1 = s2) (hc : s2.converged = true) :
    vvEquals tol7 (solveWCWS O s1.workingSet) s1.values = true ∧
    identifyLeavingConstraint s1.workingSet
      (O.dualSolve (buildDualGraph O qp s1.workingSet
        (solveWCWS O s1.workingSet))) < 0 ∧
    s2 = ⟨solveWCWS O s1.workingSet,
      O.dualSolve (buildDualGraph O qp s1.workingSet (solveWCWS O s1.workingSet)),
      s1.workingSet, true, s1.iterations + 1⟩ := by
  by_cases heq : vvEquals tol7 (solveWCWS O s1.workingSet) s1.values = true
  · rw [iterate_noprogress_eq O qp s1 heq] at h
    by_cases hlf : identifyLeavingConstraint s1.workingSet
        (O.dualSolve (buildDualGraph O qp s1.workingSet
          (solveWCWS O s1.workingSet))) < 0
    · rw [if_pos hlf] at h
      exact ⟨heq, hlf, h.symm⟩
    · rw [if_neg hlf] at h
      rw [← h] at hc
      cases hc
  · have hne : vvEquals tol7 (solveWCWS O s1.workingSet) s1.values = false := by
      revert heq
      cases vvEquals tol7 (solveWCWS O s1.workingSet) s1.values <;> simp
    rw [iterate_progress_eq O qp s1 hne] at h
    rw [← h] at hc
    cases hc

/-! ## Dual-graph key structure (C3) -/

lemma vvExists_iff_mem (v : VectorValues) (k : Key) :
    vvExists v k = true ↔ k ∈ v.map Prod.fst := by
  induction v with
  | nil => simp [vvExists, List.lookup]
  | cons q r ih =>
      obtain ⟨k', xs⟩ := q
      by_cases h : k = k'
      · subst h
        simp [vvExists, List.lookup]
      · have hb : (k == k') = false := by simp [h]
        simp only [vvExists, List.lookup, hb, List.map_cons, List.mem_cons]
        rw [← vvExists]
        simp [ih, h]

lemma mem_collectEq_iff (key k : Key) (eqs : List LinearEquality) :
    k ∈ (collectDualJacobiansEq key eqs).map Prod.fst ↔
      ∃ e ∈ eqs, (e.A.lookup key).isSome = true ∧ e.dualKey = k := by
  unfold collectDualJacobiansEq
  simp only [List.map_filterMap, List.mem_filterMap]
  constructor
  · rintro ⟨e, he, hsome⟩
    rcases hlk : e.A.lookup key with _ | blk
    · rw [hlk] at hsome; cases hsome
    · rw [hlk] at hsome
      simp only [Option.map_some, Option.map] at hsome
      refine ⟨e, he, by rw [hlk]; rfl, ?_⟩
      cases hsome
      rfl
  · rintro ⟨e, he, hsome, rfl⟩
    rcases hlk : e.A.lookup key with _ | blk
    · rw [hlk] at hsome; cases hsome
    · exact ⟨e, he, by rw [hlk]; rfl⟩

lemma mem_collectIneq_iff (key k : Key) (ws : List LinearInequality) :
    k ∈ (collectDualJacobiansIneq key ws).map Prod.fst ↔
      ∃ c ∈ ws, c.active = true ∧ (c.A.lookup key).isSome = true ∧ c.dualKey = k := by
  unfold collectDualJacobiansIneq
  simp only [List.map_filterMap, List.mem_filterMap, List.mem_filter]
  constructor
  · rintro ⟨c, ⟨hc, hca⟩, hsome⟩
    rcases hlk : c.A.lookup key with _ | blk
    · rw [hlk] at hsome; cases hsome
    · rw [hlk] at hsome
      simp only [Option.map_some, Option.map] at hsome
      refine ⟨c, hc, hca, by rw [hlk]; rfl, ?_⟩
      cases hsome
      rfl
  · rintro ⟨c, hc, hca, hsome, rfl⟩
    rcases hlk : c.A.lookup key with _ | blk
    · rw [hlk] at hsome; cases hsome
    · exact ⟨c, ⟨hc, hca⟩, by rw [hlk]; rfl⟩

lemma dualFactorKeys_createDualFactor (O : Oracles) (qp : QP) (key : Key)
    (ws : List LinearInequality) (δ : VectorValues) :
    dualFactorKeys (createDualFactor O qp key ws δ) =
      (collectDualJacobiansEq key qp.equalities ++
        collectDualJacobiansIneq key ws).map Prod.fst := by
  unfold createDualFactor
  dsimp only
  split
  · rfl
  · rename_i hlen
    have h0 : collectDualJacobiansEq key qp.equalities ++
        collectDualJacobiansIneq key ws = [] := by
      rcases h : collectDualJacobiansEq key qp.equalities ++
        collectDualJacobiansIneq key ws with _ | ⟨a, l⟩
      · rfl
      · rw [h] at hlen; simp at hlen
    rw [dualFactorKeys, h0]

lemma mem_dualGraphKeys_iff (O : Oracles) (qp : QP)
    (ws : List LinearInequality) (δ : VectorValues) (k : Key) :
    k ∈ dualGraphKeys (buildDualGraph O qp ws δ) ↔
      ∃ key ∈ constrainedKeys qp,
        ((∃ e ∈ qp.equalities, (e.A.lookup key).isSome = true ∧ e.dualKey = k) ∨
         (∃ c ∈ ws, c.active = true ∧ (c.A.lookup key).isSome = true ∧
           c.dualKey = k)) := by
  unfold dualGraphKeys buildDualGraph
  rw [List.mem_flatten]
  constructor
  · rintro ⟨ks, hks, hk⟩
    rw [List.mem_map] at hks
    obtain ⟨f, hf, rfl⟩ := hks
    rw [List.mem_filter, List.mem_map] at hf
    obtain ⟨⟨key, hkey, rfl⟩, _⟩ := hf
    rw [dualFactorKeys_createDualFactor, List.map_append, List.mem_append] at hk
    rcases hk with hk | hk
    · exact ⟨key, hkey, Or.inl ((mem_collectEq_iff key k qp.equalities).mp hk)⟩
    · exact ⟨key, hkey, Or.inr ((mem_collectIneq_iff key k ws).mp hk)⟩
  · rintro ⟨key, hkey, hcase⟩
    have hk : k ∈ (collectDualJacobiansEq key qp.equalities ++
        collectDualJacobiansIneq key ws).map Prod.fst := by
      rw [List.map_append, List.mem_append]
      rcases hcase with h | h
      · exact Or.inl ((mem_collectEq_iff key k qp.equalities).mpr h)
      · exact Or.inr ((mem_collectIneq_iff key k ws).mpr h)
    refine ⟨dualFactorKeys (createDualFactor O qp key ws δ), ?_, ?_⟩
    · rw [List.mem_map]
      refine ⟨createDualFactor O qp key ws δ, ?_, rfl⟩
      rw [List.mem_filter]
      refine ⟨List.mem_map.mpr ⟨key, hkey, rfl⟩, ?_⟩
      unfold createDualFactor
      dsimp only
      split
      · rename_i hlen
        have hne : (collectDualJacobiansEq key qp.equalities ++
            collectDualJacobiansIneq key ws) ≠ [] := by
          intro habs
          rw [habs] at hlen
          simp at hlen
        simp [List.isEmpty_iff, hne]
      · rename_i hlen
        exfalso
        rcases h : collectDualJacobiansEq key qp.equalities ++
          collectDualJacobiansIneq key ws with _ | ⟨a, l⟩
        · rw [h] at hk
          cases hk
        · rw [h] at hlen
          simp at hlen
    · rw [dualFactorKeys_createDualFactor]
      exact hk

lemma strip_fields {c c2 : LinearInequality} (h : strip c = strip c2) :
    c.A = c2.A ∧ c.b = c2.b ∧ c.dualKey = c2.dualKey := by
  cases c
  cases c2
  simpa [strip] using h

lemma map_dualKey_of_strip {l1 l2 : List LinearInequality}
    (h : l1.map strip = l2.map strip) :
    l1.map LinearInequality.dualKey = l2.map LinearInequality.dualKey := by
  have h1 : (l1.map strip).map LinearInequality.dualKey =
      (l2.map strip).map LinearInequality.dualKey := by rw [h]
  simpa [List.map_map, Function.comp] using h1

/-- For a working set that is a flagged copy of the problem's inequality
constraints (same structural data in the same order), under pairwise-distinct
dual keys and non-empty coefficient rows, a constraint's dual key appears
among the dual graph's variables exactly when the constraint is active. -/
lemma dualKey_mem_dualGraphKeys_iff (O : Oracles) (qp : QP)
    (ws : List LinearInequality) (δ : VectorValues)
    (hws : ws.map strip = qp.inequalities.map strip)
    (hdk : ((qp.equalities.map LinearEquality.dualKey) ++
      (qp.inequalities.map LinearInequality.dualKey)).Nodup)
    (hA : ∀ c ∈ qp.inequalities, c.A ≠ [])
    (c : LinearInequality) (hc : c ∈ ws) :
    (c.dualKey ∈ dualGraphKeys (buildDualGraph O qp ws δ)) ↔ c.active = true := by
  have hdkws : ws.map LinearInequality.dualKey =
      qp.inequalities.map LinearInequality.dualKey := map_dualKey_of_strip hws
  have hlen : ws.length = qp.inequalities.length := by
    have := congrArg List.length hws
    simpa using this
  obtain ⟨i, hi, hgeti⟩ := List.mem_iff_getElem.mp hc
  have hi2 : i < qp.inequalities.length := by omega
  have hstrip_i : strip c = strip (qp.inequalities.getD i default) := by
    have h1 : (ws.map strip).getD i (strip default) =
        (qp.inequalities.map strip).getD i (strip default) := by rw [hws]
    rw [List.getD_eq_getElem _ _ (by simpa using hi),
      List.getD_eq_getElem _ _ (by simpa using hi2)] at h1
    simp only [List.getElem_map] at h1
    rw [List.getD_eq_getElem _ _ hi2]
    rw [hgeti] at h1
    exact h1
  obtain ⟨hAeq, hbeq, hdkeq⟩ := strip_fields hstrip_i
  have hmemi : qp.inequalities.getD i default ∈ qp.inequalities := by
    rw [List.getD_eq_getElem _ _ hi2]
    exact List.getElem_mem hi2
  constructor
  · intro hkin
    obtain ⟨key, hkey, hcase⟩ := (mem_dualGraphKeys_iff O qp ws δ c.dualKey).mp hkin
    rcases hcase with ⟨e, he, _, hedk⟩ | ⟨c2, hc2, hc2a, _, hc2dk⟩
    · exfalso
      have hdisj := List.disjoint_of_nodup_append hdk
      have h1 : e.dualKey ∈ qp.equalities.map LinearEquality.dualKey :=
        List.mem_map.mpr ⟨e, he, rfl⟩
      have h2 : c.dualKey ∈ qp.inequalities.map LinearInequality.dualKey := by
        rw [← hdkws]
        exact List.mem_map.mpr ⟨c, hc, rfl⟩
      rw [hedk] at h1
      exact hdisj h1 h2
    · have hnd : (ws.map LinearInequality.dualKey).Nodup := by
        rw [hdkws]
        exact hdk.of_append_right
      obtain ⟨i2, hi2ws, hgeti2⟩ := List.mem_iff_getElem.mp hc2
      have hii : i = i2 := by
        have hg1 : (ws.map LinearInequality.dualKey).get
            ⟨i, by simpa using hi⟩ = c.dualKey := by
          simp [List.get_eq_getElem, hgeti]
        have hg2 : (ws.map LinearInequality.dualKey).get
            ⟨i2, by simpa using hi2ws⟩ = c.dualKey := by
          simp [List.get_eq_getElem, hgeti2, hc2dk]
        have := hnd.get_inj_iff.mp (hg1.trans hg2.symm)
        simpa using this
      subst hii
      have hcc : c = c2 := hgeti.symm.trans hgeti2
      rw [hcc]
      exact hc2a
  · intro hca
    rcases hAnil : c.A with _ | ⟨⟨k0, blk⟩, rest⟩
    · exfalso
      apply hA (qp.inequalities.getD i default) hmemi
      rw [← hAeq, hAnil]
    · apply (mem_dualGraphKeys_iff O qp ws δ c.dualKey).mpr
      refine ⟨k0, ?_, Or.inr ⟨c, hc, hca, ?_, rfl⟩⟩
      · unfold constrainedKeys
        rw [List.mem_append]
        right
        rw [List.mem_flatten]
        refine ⟨(qp.inequalities.getD i default).A.map Prod.fst,
          List.mem_map.mpr ⟨qp.inequalities.getD i default, hmemi, rfl⟩, ?_⟩
        rw [← hAeq, hAnil]
        simp
      · rw [hAnil]
        simp [List.lookup]

lemma eq_flag_of_strip {f wf : LinearInequality} (h : strip wf = strip f) :
    { f with active := wf.active } = wf := by
  cases f
  cases wf
  simp only [strip, LinearInequality.mk.injEq] at h
  obtain ⟨h1, h2, h3, _⟩ := h
  simp [h1, h2, h3]

lemma identifyActiveConstraints_of_pointwise :
    ∀ (ineqs ws : List LinearInequality) (init d : VectorValues) (w : Bool),
      ws.length = ineqs.length →
      (∀ i, i < ineqs.length →
        initWorkingFactor init d w (ineqs.getD i default) = .ok (ws.getD i default)) →
      identifyActiveConstraints ineqs init d w = .ok ws
  | [], [], _, _, _, _, _ => rfl
  | [], b :: bs, _, _, _, hlen, _ => by simp at hlen
  | a :: l, [], _, _, _, hlen, _ => by simp at hlen
  | a :: l, b :: bs, init, d, w, hlen, hpt => by
      rw [identifyActiveConstraints_cons]
      have h0 := hpt 0 (by simp)
      simp only [List.getD_cons_zero] at h0
      rw [h0]
      rw [identifyActiveConstraints_of_pointwise l bs init d w (by simpa using hlen)
        (fun i hi => by simpa using hpt (i + 1) (by simpa using hi))]

/-- C3 (amended): if `optimize` converges to `{v, d}` with a *non-empty* dual
assignment, then — given pairwise-distinct dual keys, non-empty constraint
rows, and the black-box property that the dual solve returns values for
exactly the dual graph's variables — re-running `optimize` from `{v, d}` with
warm start enabled returns immediately (one iteration) converged with the
same `{v, d}`.  (With empty converged duals the warm start degenerates to a
cold start, which can instead raise `InfeasibleInitialValues`; see the
counterexample.) -/
theorem optimize_warm_idempotent (O : Oracles) (qp : QP) (fuel : Nat)
    (init d0 v d : VectorValues) (w0 : Bool)
    (hdk : ((qp.equalities.map LinearEquality.dualKey) ++
      (qp.inequalities.map LinearInequality.dualKey)).Nodup)
    (hA : ∀ c ∈ qp.inequalities, c.A ≠ [])
    (hdom : ∀ (g : DualGraph) (k : Key),
      vvExists (O.dualSolve g) k = true ↔ k ∈ dualGraphKeys g)
    (hrun : optimize O qp fuel init d0 w0 = .ok (some (v, d)))
    (hd : d ≠ []) :
    optimize O qp 1 v d true = .ok (some (v, d)) := by
  rw [optimize] at hrun
  cases hiac : identifyActiveConstraints qp.inequalities init d0 w0 with
  | error e =>
      rw [hiac, exceptMapFn_error] at hrun
      simp at hrun
  | ok ws0 =>
      rw [hiac, exceptMapFn_ok] at hrun
      have hrun2 : ((runLoop O qp fuel ⟨init, d0, ws0, false, 0⟩).map
          (fun s => (s.values, s.duals))) = some (v, d) := Except.ok.inj hrun
      cases hrl : runLoop O qp fuel ⟨init, d0, ws0, false, 0⟩ with
      | none => rw [hrl] at hrun2; simp at hrun2
      | some sF =>
          rw [hrl] at hrun2
          have hpair : (sF.values, sF.duals) = (v, d) := by simpa using hrun2
          have hvals : sF.values = v := congrArg Prod.fst hpair
          have hduals : sF.duals = d := congrArg Prod.snd hpair
          have hconv := runLoop_some_converged O qp fuel _ sF hrl
          rcases runLoop_last O qp fuel _ sF hrl with heq0 | ⟨s1, hs2, hstrip1⟩
          · rw [heq0] at hconv
            simp at hconv
          · obtain ⟨hnp, hlf, hsF⟩ := iterate_converged O qp s1 sF hs2.symm hconv
            have hv : v = solveWCWS O s1.workingSet := by
              rw [← hvals, hsF]
            have hdD : d = O.dualSolve (buildDualGraph O qp s1.workingSet
                (solveWCWS O s1.workingSet)) := by
              rw [← hduals, hsF]
            have hstrip : s1.workingSet.map strip = qp.inequalities.map strip := by
              rw [hstrip1]
              exact strip_identifyActiveConstraints hiac
            have hlen : s1.workingSet.length = qp.inequalities.length := by
              have := congrArg List.length hstrip
              simpa using this
            have hpoint : ∀ i, i < qp.inequalities.length →
                initWorkingFactor v d true (qp.inequalities.getD i default) =
                  .ok (s1.workingSet.getD i default) := by
              intro i hi
              have hiw : i < s1.workingSet.length := by omega
              have hwf_mem : s1.workingSet.getD i default ∈ s1.workingSet := by
                rw [List.getD_eq_getElem _ _ hiw]
                exact List.getElem_mem hiw
              have hstrip_i : strip (s1.workingSet.getD i default) =
                  strip (qp.inequalities.getD i default) := by
                have h1 : (s1.workingSet.map strip).getD i (strip default) =
                    ((qp.inequalities).map strip).getD i (strip default) := by
                  rw [hstrip]
                rw [List.getD_eq_getElem _ _ (by simpa using hiw),
                  List.getD_eq_getElem _ _ (by simpa using hi)] at h1
                simp only [List.getElem_map] at h1
                rw [List.getD_eq_getElem _ _ hiw, List.getD_eq_getElem _ _ hi]
                exact h1
              obtain ⟨hAe, hbe, hdke⟩ := strip_fields hstrip_i
              have hkey_iff : vvExists d
                  (qp.inequalities.getD i default).dualKey = true ↔
                  (s1.workingSet.getD i default).active = true := by
                rw [← hdke, hdD, hdom]
                exact dualKey_mem_dualGraphKeys_iff O qp s1.workingSet _
                  hstrip hdk hA _ hwf_mem
              have hwf_eq := eq_flag_of_strip hstrip_i
              by_cases hwa : (s1.workingSet.getD i default).active = true
              · have hex : vvExists d (qp.inequalities.getD i default).dualKey = true :=
                  hkey_iff.mpr hwa
                rw [initWorkingFactor, if_pos (by simp only [Bool.true_and]; exact hex)]
                rw [hwa] at hwf_eq
                rw [hwf_eq]
              · have hexf : vvExists d (qp.inequalities.getD i default).dualKey = false := by
                  revert hwa hkey_iff
                  cases vvExists d (qp.inequalities.getD i default).dualKey <;>
                    cases (s1.workingSet.getD i default).active <;> simp
                have hwaf : (s1.workingSet.getD i default).active = false := by
                  revert hwa
                  cases (s1.workingSet.getD i default).active <;> simp
                rw [initWorkingFactor, if_neg (by simp only [Bool.true_and, hexf]; simp),
                  if_pos (by simp only [Bool.true_and, decide_eq_true_eq, vvSize,
                    gt_iff_lt]; exact List.length_pos.mpr hd)]
                rw [hwaf] at hwf_eq
                rw [hwf_eq]
            have hiac2 : identifyActiveConstraints qp.inequalities v d true =
                .ok s1.workingSet :=
              identifyActiveConstraints_of_pointwise _ _ _ _ _ hlen hpoint
            rw [optimize, hiac2, exceptMapFn_ok]
            have hnp2 : vvEquals tol7 (solveWCWS O s1.workingSet) v = true := by
              rw [hv]
              exact vvEquals_refl (by norm_num [tol7]) _
            have hstep : iterate O qp ⟨v, d, s1.workingSet, false, 0⟩ =
                ⟨v, d, s1.workingSet, true, 1⟩ := by
              have h3 := iterate_noprogress_eq O qp ⟨v, d, s1.workingSet, false, 0⟩ hnp2
              dsimp only at h3
              rw [h3, if_pos hlf, ← hdD, ← hv]
            have hloop : runLoop O qp 1 (⟨v, d, s1.workingSet, false, 0⟩ : QPState) =
                some ⟨v, d, s1.workingSet, true, 1⟩ := by
              rw [runLoop, if_neg (by simp), hstep, runLoop, if_pos rfl]
            rw [hloop]
            rfl

lemma zeroDualSolve_dom (g : DualGraph) (k : Key) :
    vvExists (zeroDualSolve g) k = true ↔ k ∈ dualGraphKeys g := by
  rw [vvExists_iff_mem, zeroDualSolve]
  simp [List.map_map, Function.comp]

/-- C3 (counterexample): a run of `optimize` that converges with an *empty*
dual assignment (no equality constraints, no active inequality constraint at
the solution).  The converged point `x + y = 3e-8` slightly violates the
inactive constraint `x + y ≤ 0` — allowed, since the no-progress test only
compares points within `1e-7` — and re-running with warm start and the empty
duals falls back to the cold start, which raises `InfeasibleInitialValues`
instead of returning the converged pair unchanged. -/
theorem optimize_warm_idempotent_cex :
    optimize ⟨fun _ => [(0, [3/200000000]), (1, [3/200000000])], zeroDualSolve,
        fun _ _ _ => []⟩
        ⟨[[0, 1]], [], [⟨[(0, [1]), (1, [1])], 0, 100, false⟩]⟩ 1
        [(0, [-3/40000000]), (1, [-3/40000000])] [] false =
      .ok (some ([(0, [3/200000000]), (1, [3/200000000])], [])) ∧
    optimize ⟨fun _ => [(0, [3/200000000]), (1, [3/200000000])], zeroDualSolve,
        fun _ _ _ => []⟩
        ⟨[[0, 1]], [], [⟨[(0, [1]), (1, [1])], 0, 100, false⟩]⟩ 1
        [(0, [3/200000000]), (1, [3/200000000])] [] true = .error ⟨⟩ := by
  have hiac : identifyActiveConstraints
      (⟨[[0, 1]], [], [⟨[(0, [1]), (1, [1])], 0, 100, false⟩]⟩ : QP).inequalities
      [(0, [-3/40000000]), (1, [-3/40000000])] [] false =
      .ok [⟨[(0, [1]), (1, [1])], 0, 100, false⟩] := by
    rw [show (⟨[[0, 1]], [], [⟨[(0, [1]), (1, [1])], 0, 100, false⟩]⟩ :
        QP).inequalities = [⟨[(0, [1]), (1, [1])], 0, 100, false⟩] from rfl]
    rw [identifyActiveConstraints_cons, initWorkingFactor_cold]
    norm_num [ineqError, dotRow, dotQ, tol7, identifyActiveConstraints_nil, abs_lt]
  have hiter : iterate ⟨fun _ => [(0, [3/200000000]), (1, [3/200000000])],
      zeroDualSolve, fun _ _ _ => []⟩
      ⟨[[0, 1]], [], [⟨[(0, [1]), (1, [1])], 0, 100, false⟩]⟩
      ⟨[(0, [-3/40000000]), (1, [-3/40000000])], [],
        [⟨[(0, [1]), (1, [1])], 0, 100, false⟩], false, 0⟩ =
      ⟨[(0, [3/200000000]), (1, [3/200000000])], [],
        [⟨[(0, [1]), (1, [1])], 0, 100, false⟩], true, 1⟩ := by
    norm_num [iterate, solveWCWS, vvEquals, listApproxEq, tol7, buildDualGraph,
      createDualFactor, constrainedKeys, collectDualJacobiansEq,
      collectDualJacobiansIneq, identifyLeavingConstraint, ilcGo, lambdaAt,
      abs_le, List.lookup, zeroDualSolve, dualGraphKeys]
  constructor
  · rw [optimize, hiac, exceptMapFn_ok]
    have hloop : runLoop ⟨fun _ => [(0, [3/200000000]), (1, [3/200000000])],
        zeroDualSolve, fun _ _ _ => []⟩
        ⟨[[0, 1]], [], [⟨[(0, [1]), (1, [1])], 0, 100, false⟩]⟩ 1
        ⟨[(0, [-3/40000000]), (1, [-3/40000000])], [],
          [⟨[(0, [1]), (1, [1])], 0, 100, false⟩], false, 0⟩ =
        some ⟨[(0, [3/200000000]), (1, [3/200000000])], [],
          [⟨[(0, [1]), (1, [1])], 0, 100, false⟩], true, 1⟩ := by
      rw [runLoop, if_neg (by simp), hiter, runLoop, if_pos rfl]
    rw [hloop]
    rfl
  · have hiac2 : identifyActiveConstraints
        (⟨[[0, 1]], [], [⟨[(0, [1]), (1, [1])], 0, 100, false⟩]⟩ : QP).inequalities
        [(0, [3/200000000]), (1, [3/200000000])] [] true = .error ⟨⟩ := by
      rw [show (⟨[[0, 1]], [], [⟨[(0, [1]), (1, [1])], 0, 100, false⟩]⟩ :
          QP).inequalities = [⟨[(0, [1]), (1, [1])], 0, 100, false⟩] from rfl]
      rw [identifyActiveConstraints_cons]
      norm_num [initWorkingFactor, vvExists, vvSize, ineqError, dotRow, dotQ,
        tol7, List.lookup]
    rw [optimize, hiac2]
    rfl

/-- Witness for C3 (amended): the QP with the single inequality `x ≤ 0`,
started at the feasible point `x = 0`; the first run converges with the
non-empty duals `(100 ↦ [0])`, and the warm re-run returns the same pair. -/
theorem optimize_warm_idempotent_witness :
    ((([] : List LinearEquality).map LinearEquality.dualKey) ++
      (([⟨[(0, [1])], 0, 100, false⟩] : List LinearInequality).map
        LinearInequality.dualKey)).Nodup ∧
    (∀ c ∈ ([⟨[(0, [1])], 0, 100, false⟩] : List LinearInequality), c.A ≠ []) ∧
    (∀ (g : DualGraph) (k : Key),
      vvExists ((⟨fun _ => [(0, [0])], zeroDualSolve,
        fun _ _ _ => []⟩ : Oracles).dualSolve g) k = true ↔ k ∈ dualGraphKeys g) ∧
    optimize ⟨fun _ => [(0, [0])], zeroDualSolve, fun _ _ _ => []⟩
        ⟨[], [], [⟨[(0, [1])], 0, 100, false⟩]⟩ 1 [(0, [0])] [] false =
      .ok (some ([(0, [0])], [(100, [0])])) ∧
    ([(100, [0])] : VectorValues) ≠ [] ∧
    optimize ⟨fun _ => [(0, [0])], zeroDualSolve, fun _ _ _ => []⟩
        ⟨[], [], [⟨[(0, [1])], 0, 100, false⟩]⟩ 1 [(0, [0])] [(100, [0])] true =
      .ok (some ([(0, [0])], [(100, [0])])) := by
  have h1 : ((([] : List LinearEquality).map LinearEquality.dualKey) ++
      (([⟨[(0, [1])], 0, 100, false⟩] : List LinearInequality).map
        LinearInequality.dualKey)).Nodup := by simp
  have h2 : ∀ c ∈ ([⟨[(0, [1])], 0, 100, false⟩] : List LinearInequality),
      c.A ≠ [] := by
    intro c hc
    rcases List.mem_cons.mp hc with rfl | hc2
    · simp
    · exact absurd hc2 (List.not_mem_nil c)
  have h3 : ∀ (g : DualGraph) (k : Key),
      vvExists ((⟨fun _ => [(0, [0])], zeroDualSolve,
        fun _ _ _ => []⟩ : Oracles).dualSolve g) k = true ↔ k ∈ dualGraphKeys g :=
    fun g k => zeroDualSolve_dom g k
  have hiacW : identifyActiveConstraints
      (⟨[], [], [⟨[(0, [1])], 0, 100, false⟩]⟩ : QP).inequalities
      [(0, [0])] [] false = .ok [⟨[(0, [1])], 0, 100, true⟩] := by
    rw [show (⟨[], [], [⟨[(0, [1])], 0, 100, false⟩]⟩ : QP).inequalities =
        [⟨[(0, [1])], 0, 100, false⟩] from rfl]
    rw [identifyActiveConstraints_cons, initWorkingFactor_cold]
    norm_num [ineqError, dotRow, dotQ, tol7, identifyActiveConstraints_nil, abs_lt]
  have hiterW : iterate ⟨fun _ => [(0, [0])], zeroDualSolve, fun _ _ _ => []⟩
      ⟨[], [], [⟨[(0, [1])], 0, 100, false⟩]⟩
      ⟨[(0, [0])], [], [⟨[(0, [1])], 0, 100, true⟩], false, 0⟩ =
      ⟨[(0, [0])], [(100, [0])], [⟨[(0, [1])], 0, 100, true⟩], true, 1⟩ := by
    norm_num [iterate, solveWCWS, vvEquals, listApproxEq, tol7, buildDualGraph,
      createDualFactor, constrainedKeys, collectDualJacobiansEq,
      collectDualJacobiansIneq, identifyLeavingConstraint, ilcGo, lambdaAt,
      abs_le, List.lookup, zeroDualSolve, dualGraphKeys, dualFactorKeys,
      transposeRow, List.filterMap_cons, List.filterMap_nil, List.filter_cons,
      List.filter_nil, Option.map, List.flatten]
  have h4 : optimize ⟨fun _ => [(0, [0])], zeroDualSolve, fun _ _ _ => []⟩
      ⟨[], [], [⟨[(0, [1])], 0, 100, false⟩]⟩ 1 [(0, [0])] [] false =
      .ok (some ([(0, [0])], [(100, [0])])) := by
    rw [optimize, hiacW, exceptMapFn_ok]
    have hloop : runLoop ⟨fun _ => [(0, [0])], zeroDualSolve, fun _ _ _ => []⟩
        ⟨[], [], [⟨[(0, [1])], 0, 100, false⟩]⟩ 1
        ⟨[(0, [0])], [], [⟨[(0, [1])], 0, 100, true⟩], false, 0⟩ =
        some ⟨[(0, [0])], [(100, [0])], [⟨[(0, [1])], 0, 100, true⟩], true, 1⟩ := by
      rw [runLoop, if_neg (by simp), hiterW, runLoop, if_pos rfl]
    rw [hloop]
    rfl
  have h5 : ([(100, [0])] : VectorValues) ≠ [] := by simp
  exact ⟨h1, h2, h3, h4, h5,
    optimize_warm_idempotent ⟨fun _ => [(0, [0])], zeroDualSolve, fun _ _ _ => []⟩
      ⟨[], [], [⟨[(0, [1])], 0, 100, false⟩]⟩ 1 [(0, [0])] [] [(0, [0])]
      [(100, [0])] false h1 h2 h3 h4 h5⟩

end QPVerify
